import Mathlib

/-!
Verification development for the RGPnP-rs rotation estimator.

Shallow embedding conventions:
  * `f32` scalars are modelled by `ℝ` (exact-real idealization of the
    floating-point code); machine integers (`u32` counters) by `ℕ`.
  * Data structures (`Vec3A`, `Mat3A`, `Corres`, `CorresPair`, the two
    region types of `bounds3.rs`, `Solver`) are structures parameterized
    by the scalar type `S`, so that ordering code — which in the source
    never inspects scalar fields — can be stated for any scalar carrier,
    including one with a NaN-like element.  All arithmetic/geometry is
    defined at `S := ℝ`.
  * `std::collections::BinaryHeap` is modelled by its backing vector
    (a `List`) together with the sift procedures of the Rust standard
    library (`sift_up`, `sift_down_range`, `sift_down_to_bottom`,
    `rebuild`), written with explicit fuel; `peek` is the element at
    index 0.  `BinaryHeap::extend` is modelled as element-wise `push`.
  * The potentially non-terminating `bnb_rot3` loop is given explicit
    fuel; `none` means the fuel ran out, `some r` means the Rust loop
    returned `r`.
  * `&self` methods cannot mutate the solver, so `pose` is a pure
    function of the solver; the state-passing wrapper `poseM` returns
    the (unchanged) solver alongside the result.
-/

namespace RGPnP

/-! ## glam primitives (external linear-algebra facility), modelled over ℝ -/

structure Vec3 (S : Type) where
  x : S
  y : S
  z : S
deriving Repr

def Vec3.dot (a b : Vec3 ℝ) : ℝ :=
  a.x * b.x + a.y * b.y + a.z * b.z

def Vec3.cross (a b : Vec3 ℝ) : Vec3 ℝ :=
  ⟨a.y * b.z - a.z * b.y, a.z * b.x - a.x * b.z, a.x * b.y - a.y * b.x⟩

noncomputable def Vec3.sub (a b : Vec3 ℝ) : Vec3 ℝ :=
  ⟨a.x - b.x, a.y - b.y, a.z - b.z⟩

noncomputable def Vec3.smul (s : ℝ) (v : Vec3 ℝ) : Vec3 ℝ :=
  ⟨s * v.x, s * v.y, s * v.z⟩

noncomputable def Vec3.lengthSquared (v : Vec3 ℝ) : ℝ :=
  v.x * v.x + v.y * v.y + v.z * v.z

noncomputable def Vec3.length (v : Vec3 ℝ) : ℝ :=
  Real.sqrt v.lengthSquared

/-- glam `Vec3A::try_normalize`: `Some(self * recip(length))` when the
reciprocal of the length is finite and positive, i.e. when the length is
positive, else `None`. -/
noncomputable def Vec3.tryNormalize (v : Vec3 ℝ) : Option (Vec3 ℝ) :=
  if 0 < v.length then some (Vec3.smul v.length⁻¹ v) else none

/-- glam `Vec3A::angle_between`:
`acos_approx(dot / sqrt(length_squared * length_squared))`; `acos_approx`
clamps its argument to `[-1, 1]`, as does `Real.arccos`. -/
noncomputable def Vec3.angleBetween (a b : Vec3 ℝ) : ℝ :=
  Real.arccos (a.dot b / Real.sqrt (a.lengthSquared * b.lengthSquared))

structure Mat3 (S : Type) where
  xAxis : Vec3 S
  yAxis : Vec3 S
  zAxis : Vec3 S
deriving Repr

def Mat3.identity : Mat3 ℝ :=
  ⟨⟨1, 0, 0⟩, ⟨0, 1, 0⟩, ⟨0, 0, 1⟩⟩

/-- glam `Mat3A * Vec3A`: `x_axis * v.x + y_axis * v.y + z_axis * v.z`. -/
noncomputable def Mat3.mulVec (m : Mat3 ℝ) (v : Vec3 ℝ) : Vec3 ℝ :=
  ⟨m.xAxis.x * v.x + m.yAxis.x * v.y + m.zAxis.x * v.z,
   m.xAxis.y * v.x + m.yAxis.y * v.y + m.zAxis.y * v.z,
   m.xAxis.z * v.x + m.yAxis.z * v.y + m.zAxis.z * v.z⟩

def Mat3.transpose (m : Mat3 ℝ) : Mat3 ℝ :=
  ⟨⟨m.xAxis.x, m.yAxis.x, m.zAxis.x⟩,
   ⟨m.xAxis.y, m.yAxis.y, m.zAxis.y⟩,
   ⟨m.xAxis.z, m.yAxis.z, m.zAxis.z⟩⟩

/-- glam `Mat3A::from_axis_angle` (Rodrigues formula, column major). -/
noncomputable def Mat3.fromAxisAngle (axis : Vec3 ℝ) (angle : ℝ) : Mat3 ℝ :=
  let s := Real.sin angle
  let c := Real.cos angle
  let omc := 1 - c
  ⟨⟨axis.x * axis.x * omc + c, axis.x * axis.y * omc + axis.z * s,
      axis.x * axis.z * omc - axis.y * s⟩,
   ⟨axis.x * axis.y * omc - axis.z * s, axis.y * axis.y * omc + c,
      axis.y * axis.z * omc + axis.x * s⟩,
   ⟨axis.x * axis.z * omc + axis.y * s, axis.y * axis.z * omc - axis.x * s,
      axis.z * axis.z * omc + c⟩⟩

/-- glam `Mat3A::determinant`: `z_axis.dot(x_axis.cross(y_axis))`. -/
noncomputable def Mat3.determinant (m : Mat3 ℝ) : ℝ :=
  m.zAxis.dot (m.xAxis.cross m.yAxis)

/-- glam `Mat3A::inverse`.  The default glam build carries no assertion:
on a singular matrix the reciprocal of the zero determinant is taken
anyway (IEEE: non-finite entries; in the real-division model `0⁻¹ = 0`). -/
noncomputable def Mat3.inverse (m : Mat3 ℝ) : Mat3 ℝ :=
  let tmp0 := m.yAxis.cross m.zAxis
  let tmp1 := m.zAxis.cross m.xAxis
  let tmp2 := m.xAxis.cross m.yAxis
  let det := m.zAxis.dot tmp2
  let invDet := det⁻¹
  Mat3.transpose ⟨Vec3.smul invDet tmp0, Vec3.smul invDet tmp1, Vec3.smul invDet tmp2⟩

/-! ## `types.rs` / `corres.rs` -/

/-- `ICoord` (integer pixel coordinates, glam `IVec2`). -/
def ICoord : Type := ℤ × ℤ

/-- `corres.rs` `UV`. -/
structure UV (S : Type) where
  u : Vec3 S
  v : Vec3 S

/-- `UV::v_ru_angle`: `v.angle_between(rot * u)`. -/
noncomputable def UV.vRuAngle (uv : UV ℝ) (rot : Mat3 ℝ) : ℝ :=
  Vec3.angleBetween uv.v (rot.mulVec uv.u)

/-- `corres.rs` `Corres` (`CCoord` projected bearing, `WCoord` world point). -/
structure Corres (S : Type) where
  projected : Vec3 S
  world : Vec3 S

/-- `Corres::compute_uv`: `u = self.world - other.world`,
`v = self.projected.cross(other.projected)`. -/
noncomputable def Corres.computeUV (c other : Corres ℝ) : UV ℝ :=
  ⟨Vec3.sub c.world other.world, Vec3.cross c.projected other.projected⟩

/-- `corres.rs` `CorresPair` (a pair of correspondences). -/
structure CorresPair (S : Type) where
  fst : Corres S
  snd : Corres S

/-- `CorresPair::make_pairs`: `chunks_exact(2)`, the odd trailing item
discarded. -/
def CorresPair.makePairs {S : Type} : List (Corres S) → List (CorresPair S)
  | a :: b :: rest => ⟨a, b⟩ :: CorresPair.makePairs rest
  | _ => []

/-- `CorresPair::uv`. -/
noncomputable def CorresPair.uv (p : CorresPair ℝ) : UV ℝ :=
  Corres.computeUV p.fst p.snd

/-! ## `bounds3.rs`: `Range` and the two active region parameterizations -/

structure Range (S : Type) where
  min : S
  max : S

noncomputable def Range.center (r : Range ℝ) : ℝ :=
  (r.min + r.max) / 2

noncomputable def Range.length (r : Range ℝ) : ℝ :=
  |r.max - r.min|

noncomputable def Range.divide (r : Range ℝ) : Range ℝ × Range ℝ :=
  (⟨r.min, r.center⟩, ⟨r.center, r.max⟩)

/-- `bounds3.rs` `RBAngleAxis`. -/
structure RBAngleAxis (S : Type) where
  upper : ℕ
  lower : ℕ
  center : Vec3 S
  edge : S
  corres_pairs : List (CorresPair S)

/-- `bounds3.rs` `RBPolar`. -/
structure RBPolar (S : Type) where
  upper : ℕ
  lower : ℕ
  theta : Range S
  phi : Range S
  angle : Range S
  corres_pairs : List (CorresPair S)

/-- `RBAngleAxis::new`. -/
def RBAngleAxis.new {S : Type} (center : Vec3 S) (edge : S)
    (corres : List (Corres S)) : RBAngleAxis S :=
  ⟨0, 0, center, edge, CorresPair.makePairs corres⟩

/-- `RBPolar::new` (the `Range` conversions already applied). -/
def RBPolar.new {S : Type} (theta phi angle : Range S)
    (corres : List (Corres S)) : RBPolar S :=
  ⟨0, 0, theta, phi, angle, CorresPair.makePairs corres⟩

/-- `Ord for RBAngleAxis` in `bounds3.rs`: compare `upper`, break ties by
`lower`; the geometric fields are never read. -/
def RBAngleAxis.cmp {S : Type} (a b : RBAngleAxis S) : Ordering :=
  match compare a.upper b.upper, compare a.lower b.lower with
  | Ordering.eq, lowerOrdering => lowerOrdering
  | upperOrdering, _ => upperOrdering

/-- `Ord for RBPolar` in `bounds3.rs`: compare `upper` only (the
`lower` tie-break is commented out); the geometric fields are never read. -/
def RBPolar.cmp {S : Type} (a b : RBPolar S) : Ordering :=
  compare a.upper b.upper

/-- `RBAngleAxis::subdivide`: eight sub-cubes of edge `e/2` centered at
`c ± (e/4, e/4, e/4)`, in source order, inheriting the pair list. -/
noncomputable def RBAngleAxis.subdivide (r : RBAngleAxis ℝ) : List (RBAngleAxis ℝ) :=
  let half := r.edge / 2
  let quat := r.edge / 4
  let cx := r.center.x
  let cy := r.center.y
  let cz := r.center.z
  [⟨0, 0, ⟨cx + quat, cy + quat, cz + quat⟩, half, r.corres_pairs⟩,
   ⟨0, 0, ⟨cx + quat, cy + quat, cz - quat⟩, half, r.corres_pairs⟩,
   ⟨0, 0, ⟨cx + quat, cy - quat, cz + quat⟩, half, r.corres_pairs⟩,
   ⟨0, 0, ⟨cx + quat, cy - quat, cz - quat⟩, half, r.corres_pairs⟩,
   ⟨0, 0, ⟨cx - quat, cy + quat, cz + quat⟩, half, r.corres_pairs⟩,
   ⟨0, 0, ⟨cx - quat, cy + quat, cz - quat⟩, half, r.corres_pairs⟩,
   ⟨0, 0, ⟨cx - quat, cy - quat, cz + quat⟩, half, r.corres_pairs⟩,
   ⟨0, 0, ⟨cx - quat, cy - quat, cz - quat⟩, half, r.corres_pairs⟩]

/-- `RBAngleAxis::rotation`: axis = normalized center (identity when the
center cannot be normalized), angle = length of the center. -/
noncomputable def RBAngleAxis.rotation (r : RBAngleAxis ℝ) : Mat3 ℝ :=
  match Vec3.tryNormalize r.center with
  | none => Mat3.identity
  | some axis => Mat3.fromAxisAngle axis r.center.length

/-- One iteration of the `RBAngleAxis::compute_bound` loop body. -/
noncomputable def RBAngleAxis.boundStep (threshold : ℝ) (acc : RBAngleAxis ℝ)
    (p : CorresPair ℝ) : RBAngleAxis ℝ :=
  let angle := p.uv.vRuAngle acc.rotation
  let error := |angle - Real.pi / 2|
  let alpha := Real.sqrt 3 * (acc.edge / 2)
  let acc1 := if error < threshold + alpha then
    { acc with upper := acc.upper + 1 } else acc
  if error < threshold then { acc1 with lower := acc1.lower + 1 } else acc1

/-- `RBAngleAxis::compute_bound`: for every pair, increment `upper` when
`|∠(v, R·u) - π/2| < τ + √3·(e/2)` and `lower` when `< τ`, with the
angle taken at the region's center rotation. -/
noncomputable def RBAngleAxis.computeBound (r : RBAngleAxis ℝ) (threshold : ℝ) :
    RBAngleAxis ℝ :=
  r.corres_pairs.foldl (RBAngleAxis.boundStep threshold) r

/-- `RBPolar::subdivide`: the eight interval-product children, in source
order. -/
noncomputable def RBPolar.subdivide (r : RBPolar ℝ) : List (RBPolar ℝ) :=
  let t1 := r.theta.divide.1
  let t2 := r.theta.divide.2
  let p1 := r.phi.divide.1
  let p2 := r.phi.divide.2
  let a1 := r.angle.divide.1
  let a2 := r.angle.divide.2
  [⟨0, 0, t1, p1, a1, r.corres_pairs⟩,
   ⟨0, 0, t1, p1, a2, r.corres_pairs⟩,
   ⟨0, 0, t1, p2, a1, r.corres_pairs⟩,
   ⟨0, 0, t1, p2, a2, r.corres_pairs⟩,
   ⟨0, 0, t2, p1, a1, r.corres_pairs⟩,
   ⟨0, 0, t2, p1, a2, r.corres_pairs⟩,
   ⟨0, 0, t2, p2, a1, r.corres_pairs⟩,
   ⟨0, 0, t2, p2, a2, r.corres_pairs⟩]

/-- The rotation with polar parameters `(θ, φ, a)`: axis
`(sin θ cos φ, sin θ sin φ, cos θ)`, angle `a`. -/
noncomputable def RBPolar.rotationAt (t p a : ℝ) : Mat3 ℝ :=
  Mat3.fromAxisAngle
    ⟨Real.sin t * Real.cos p, Real.sin t * Real.sin p, Real.cos t⟩ a

/-- `RBPolar::rotation`: `rotationAt` at the three interval centers. -/
noncomputable def RBPolar.rotation (r : RBPolar ℝ) : Mat3 ℝ :=
  RBPolar.rotationAt r.theta.center r.phi.center r.angle.center

/-- One iteration of the `RBPolar::compute_bound` loop body, with the
`(|θ|·|φ|·|a|)/8`-style `alpha` that is live in the source
(`angle.length * theta.length * phi.length / 8`). -/
noncomputable def RBPolar.boundStep (threshold : ℝ) (acc : RBPolar ℝ)
    (p : CorresPair ℝ) : RBPolar ℝ :=
  let r0u := acc.rotation.mulVec p.uv.u
  let angle := Vec3.angleBetween p.uv.v r0u
  let error := |angle - Real.pi / 2|
  let alpha := acc.angle.length * acc.theta.length * acc.phi.length / 8
  let acc1 := if error < threshold + alpha then
    { acc with upper := acc.upper + 1 } else acc
  if error < threshold then { acc1 with lower := acc1.lower + 1 } else acc1

/-- `RBPolar::compute_bound`. -/
noncomputable def RBPolar.computeBound (r : RBPolar ℝ) (threshold : ℝ) :
    RBPolar ℝ :=
  r.corres_pairs.foldl (RBPolar.boundStep threshold) r

/-! ## Region semantics (which rotations a region stands for, spec section 4.3) -/

/-- Membership of an axis-angle vector in the cube of an `RBAngleAxis`
region (axis-aligned cube centered at `center` with edge `edge`). -/
def RBAngleAxis.memCube (r : RBAngleAxis ℝ) (v : Vec3 ℝ) : Prop :=
  |v.x - r.center.x| ≤ r.edge / 2 ∧ |v.y - r.center.y| ≤ r.edge / 2 ∧
    |v.z - r.center.z| ≤ r.edge / 2

/-- Membership of a `(θ, φ, a)` parameter triple in the interval product
of an `RBPolar` region. -/
def RBPolar.memParams (r : RBPolar ℝ) (t p a : ℝ) : Prop :=
  r.theta.min ≤ t ∧ t ≤ r.theta.max ∧ r.phi.min ≤ p ∧ p ≤ r.phi.max ∧
    r.angle.min ≤ a ∧ a ≤ r.angle.max

/-- Inlier count of a rotation over a pair list at threshold `τ`
(spec section 4.1: a pair is an inlier iff `|∠(v, R·u) - π/2| < τ`);
this is the predicate of the `lower` branch of `compute_bound`. -/
noncomputable def inlierCount (pairs : List (CorresPair ℝ)) (rot : Mat3 ℝ)
    (threshold : ℝ) : ℕ :=
  pairs.countP (fun p => decide (|p.uv.vRuAngle rot - Real.pi / 2| < threshold))

/-! ## `std::collections::BinaryHeap`, modelled on its backing vector

The sift procedures follow the Rust standard library: `sift_up` moves an
element up while it is strictly greater than its parent; `sift_down_range`
picks the greater child (ties resolved to the right child) and stops as
soon as the element is not less than it; `pop` swaps the last element to
the root and runs `sift_down_to_bottom`; `from`/`retain` rebuild with
`sift_down` on the first half in reverse.  All recursions carry explicit
fuel that is ample for the index ranges they are invoked on. -/

def hSwap {α : Type} (l : List α) (i j : ℕ) : List α :=
  match l.get? i, l.get? j with
  | some a, some b => (l.set i b).set j a
  | _, _ => l

def siftUpF {α : Type} (cmp : α → α → Ordering) :
    ℕ → List α → ℕ → List α
  | 0, l, _ => l
  | _ + 1, l, 0 => l
  | fuel + 1, l, pos + 1 =>
    match l.get? (pos + 1), l.get? (pos / 2) with
    | some e, some p =>
      if cmp e p = Ordering.gt then
        siftUpF cmp fuel (hSwap l (pos + 1) (pos / 2)) (pos / 2)
      else l
    | _, _ => l

def siftDownF {α : Type} (cmp : α → α → Ordering) :
    ℕ → List α → ℕ → List α
  | 0, l, _ => l
  | fuel + 1, l, pos =>
    match l.get? pos, l.get? (2 * pos + 1), l.get? (2 * pos + 2) with
    | some e, some c1, some c2 =>
      if cmp c1 c2 = Ordering.gt then
        if cmp e c1 = Ordering.lt then
          siftDownF cmp fuel (hSwap l pos (2 * pos + 1)) (2 * pos + 1)
        else l
      else
        if cmp e c2 = Ordering.lt then
          siftDownF cmp fuel (hSwap l pos (2 * pos + 2)) (2 * pos + 2)
        else l
    | some e, some c1, none =>
      if cmp e c1 = Ordering.lt then
        siftDownF cmp fuel (hSwap l pos (2 * pos + 1)) (2 * pos + 1)
      else l
    | _, _, _ => l

def siftToBottomF {α : Type} (cmp : α → α → Ordering) :
    ℕ → List α → ℕ → List α × ℕ
  | 0, l, pos => (l, pos)
  | fuel + 1, l, pos =>
    match l.get? (2 * pos + 1), l.get? (2 * pos + 2) with
    | some c1, some c2 =>
      if cmp c1 c2 = Ordering.gt then
        siftToBottomF cmp fuel (hSwap l pos (2 * pos + 1)) (2 * pos + 1)
      else siftToBottomF cmp fuel (hSwap l pos (2 * pos + 2)) (2 * pos + 2)
    | some _, none => siftToBottomF cmp fuel (hSwap l pos (2 * pos + 1)) (2 * pos + 1)
    | _, _ => (l, pos)

/-- `BinaryHeap::push`: append, then `sift_up` from the new slot. -/
def heapPush {α : Type} (cmp : α → α → Ordering) (l : List α) (x : α) : List α :=
  siftUpF cmp (l.length + 1) (l ++ [x]) l.length

/-- `BinaryHeap::pop`: return the root; move the last element to the
root and `sift_down_to_bottom`, then `sift_up` from where the hole
ended. -/
def heapPop {α : Type} (cmp : α → α → Ordering) (l : List α) :
    Option (α × List α) :=
  match l with
  | [] => none
  | [x] => some (x, [])
  | x :: y :: rest =>
    let body := (x :: y :: rest).dropLast
    let last := (y :: rest).getLast (List.cons_ne_nil y rest)
    let start := body.set 0 last
    let sunk := siftToBottomF cmp start.length start 0
    some (x, siftUpF cmp (sunk.2 + 1) sunk.1 sunk.2)

/-- `BinaryHeap::rebuild`: `sift_down` each index in `(0 .. len/2).rev()`. -/
def heapRebuild {α : Type} (cmp : α → α → Ordering) (l : List α) : List α :=
  (List.range (l.length / 2)).reverse.foldl
    (fun acc i => siftDownF cmp acc.length acc i) l

/-- `BinaryHeap::from(vec)`: adopt the vector and rebuild. -/
def heapFromList {α : Type} (cmp : α → α → Ordering) (l : List α) : List α :=
  heapRebuild cmp l

/-- `BinaryHeap::retain` (nightly `binary_heap_retain`): retain on the
backing vector, then rebuild. -/
def heapRetain {α : Type} (cmp : α → α → Ordering) (pred : α → Bool)
    (l : List α) : List α :=
  heapRebuild cmp (l.filter pred)

/-- `BinaryHeap::extend`, element-wise `push`. -/
def heapExtend {α : Type} (cmp : α → α → Ordering) (l : List α)
    (xs : List α) : List α :=
  xs.foldl (heapPush cmp) l

/-! ## `bnb.rs`: the generic branch-and-bound engine `bnb_rot3`

`bnb_rot3` is generic over `impl RBound`; the trait contract
(`rbound2.rs`) is modelled as a structure of functions.  The rotation
type is a parameter `M` (the source fixes `Mat3A`; `Mat3A::IDENTITY` is
passed as `ident` at the instantiation). -/

structure RBoundOps (R M : Type) where
  upper : R → ℕ
  lower : R → ℕ
  subdivide : R → List R
  rotation : R → M
  computeBound : R → ℝ → R
  cmp : R → R → Ordering

/-- The loop state of `bnb_rot3`: the `SatisfiedBranch` incumbent
(`lower_bound`, `domain`) plus the heap's backing vector. -/
structure BnBState (R M : Type) where
  lower_bound : ℕ
  domain : M
  queue : List R

/-- The incumbent-update pass: for every region in heap (data) order,
if `solution.lower_bound < branch.lower()` set the incumbent to that
branch's lower bound and rotation. -/
def updateSolution {R M : Type} (ops : RBoundOps R M) (q : List R)
    (lb : ℕ) (dom : M) : ℕ × M :=
  q.foldl
    (fun s branch =>
      if s.1 < ops.lower branch then (ops.lower branch, ops.rotation branch) else s)
    (lb, dom)

/-- The body of one `bnb_rot3` iteration after a successful pop:
subdivide, compute bounds, extend the heap, update the incumbent, prune
(`retain (lower_bound <= upper)`). -/
def afterBranch {R M : Type} (ops : RBoundOps R M) (threshold : ℝ)
    (st : BnBState R M) (bound : R) (rest : List R) : BnBState R M :=
  let divided := (ops.subdivide bound).map (fun d => ops.computeBound d threshold)
  let q1 := heapExtend ops.cmp rest divided
  let s := updateSolution ops q1 st.lower_bound st.domain
  ⟨s.1, s.2, heapRetain ops.cmp (fun b => decide (s.1 ≤ ops.upper b)) q1⟩

inductive StepRes (R M : Type) where
  | done (r : M)
  | next (st : BnBState R M)

/-- One iteration of the `bnb_rot3` loop.  `done` models the two return
paths: pop failing (`while let` ends, returning `solution.domain`), and
`peek().map(upper) == Some(lower_bound)` (returning
`peek().unwrap().rotation()`). -/
def bnbStep {R M : Type} (ops : RBoundOps R M) (threshold : ℝ)
    (st : BnBState R M) : StepRes R M :=
  match heapPop ops.cmp st.queue with
  | none => StepRes.done st.domain
  | some (bound, rest) =>
    let st1 := afterBranch ops threshold st bound rest
    match st1.queue.head? with
    | some h =>
      if ops.upper h = st1.lower_bound then StepRes.done (ops.rotation h)
      else StepRes.next st1
    | none => StepRes.next st1

def bnbLoop {R M : Type} (ops : RBoundOps R M) (threshold : ℝ) :
    ℕ → BnBState R M → Option M
  | 0, _ => none
  | fuel + 1, st =>
    match bnbStep ops threshold st with
    | StepRes.done r => some r
    | StepRes.next st1 => bnbLoop ops threshold fuel st1

/-- `bnb_rot3(init, threshold)` with explicit fuel; the incumbent starts
at `(0, ident)` and the heap is `BinaryHeap::from(init)`. -/
def bnbRot3 {R M : Type} (ops : RBoundOps R M) (ident : M) (fuel : ℕ)
    (init : List R) (threshold : ℝ) : Option M :=
  bnbLoop ops threshold fuel ⟨0, ident, heapFromList ops.cmp init⟩

/-- The `RBound` vtable of `RBAngleAxis` over ℝ. -/
noncomputable def rbAngleAxisOps : RBoundOps (RBAngleAxis ℝ) (Mat3 ℝ) :=
  ⟨RBAngleAxis.upper, RBAngleAxis.lower, RBAngleAxis.subdivide,
   RBAngleAxis.rotation, RBAngleAxis.computeBound, RBAngleAxis.cmp⟩

/-- The `RBound` vtable of `RBPolar` over ℝ. -/
noncomputable def rbPolarOps : RBoundOps (RBPolar ℝ) (Mat3 ℝ) :=
  ⟨RBPolar.upper, RBPolar.lower, RBPolar.subdivide,
   RBPolar.rotation, RBPolar.computeBound, RBPolar.cmp⟩

/-! ## `lib.rs`: `CameraK` and the `Solver` facade -/

inductive RotationBound where
  | angleAxis
  | polarCoordinate

structure CameraK where
  fx : ℝ
  fy : ℝ
  cx : ℝ
  cy : ℝ

/-- `CameraK::as_mat3a`: columns `X * fx`, `Y * fy`, `[cx, cy, 1]`. -/
noncomputable def CameraK.asMat3a (k : CameraK) : Mat3 ℝ :=
  ⟨⟨k.fx, 0, 0⟩, ⟨0, k.fy, 0⟩, ⟨k.cx, k.cy, 1⟩⟩

/-- `CameraK::to_camera_coord`: `K⁻¹ * [u, v, 1]ᵀ`. -/
noncomputable def CameraK.toCameraCoord (k : CameraK) (image : ICoord) : Vec3 ℝ :=
  k.asMat3a.inverse.mulVec ⟨(image.1 : ℝ), (image.2 : ℝ), 1⟩

structure Solver (S : Type) where
  corres : List (Corres S)
  r_threshold : S
  t_threshold : S
  rot_bound : RotationBound

/-- `Solver::new`. -/
def Solver.new (rThreshold tThreshold : ℝ) : Solver ℝ :=
  ⟨[], rThreshold, tThreshold, RotationBound.angleAxis⟩

/-- `Solver::reset_correspondence`. -/
def Solver.resetCorrespondence (s : Solver ℝ) : Solver ℝ :=
  { s with corres := [] }

/-- `Solver::add_correspondence`: convert the pixel through the
calibration and push the correspondence.  The source contains no check
and no error path. -/
noncomputable def Solver.addCorrespondence (s : Solver ℝ) (projected : ICoord)
    (world : Vec3 ℝ) (k : CameraK) : Solver ℝ :=
  { s with corres := s.corres ++ [⟨k.toCameraCoord projected, world⟩] }

/-- The seed region `pose` builds in the angle-axis mode:
`RBAngleAxis::new(Vec3A::ZERO, 2π, corres)`. -/
noncomputable def poseSeedAngleAxis (corres : List (Corres ℝ)) : RBAngleAxis ℝ :=
  RBAngleAxis.new ⟨0, 0, 0⟩ (2 * Real.pi) corres

/-- The seed region `pose` builds in the polar mode:
`RBPolar::new(-π..=π, -π/2..=π/2, -π..=π, corres)`. -/
noncomputable def poseSeedPolar (corres : List (Corres ℝ)) : RBPolar ℝ :=
  RBPolar.new ⟨-Real.pi, Real.pi⟩ ⟨-(Real.pi / 2), Real.pi / 2⟩
    ⟨-Real.pi, Real.pi⟩ corres

/-- The rotation part of `Solver::pose`: dispatch on the configured
parameterization and run `bnb_rot3` on the single seed region. -/
noncomputable def Solver.poseRot (fuel : ℕ) (s : Solver ℝ) : Option (Mat3 ℝ) :=
  match s.rot_bound with
  | RotationBound.angleAxis =>
    bnbRot3 rbAngleAxisOps Mat3.identity fuel [poseSeedAngleAxis s.corres] s.r_threshold
  | RotationBound.polarCoordinate =>
    bnbRot3 rbPolarOps Mat3.identity fuel [poseSeedPolar s.corres] s.r_threshold

/-- `Solver::pose`: the estimated rotation paired with the zero
translation. -/
noncomputable def Solver.pose (fuel : ℕ) (s : Solver ℝ) :
    Option (Mat3 ℝ × Vec3 ℝ) :=
  (s.poseRot fuel).map (fun r => (r, ⟨0, 0, 0⟩))

/-- State-passing view of `pose`: the method borrows the solver
immutably (`&self`), so the embedding threads the state through
unchanged. -/
noncomputable def Solver.poseM (fuel : ℕ) (s : Solver ℝ) :
    Option (Mat3 ℝ × Vec3 ℝ) × Solver ℝ :=
  (s.pose fuel, s)

/-! ## Concrete instances and scenarios used by witnesses and
counterexamples -/

/-- A client region type for the generic engine (`bnb_rot3` is generic
over `impl RBound`): explicit bounds, an abstract rotation id, explicit
children; `compute_bound` is the identity, the ordering compares `upper`
only, as `Ord for RBPolar` does. -/
inductive ToyRegion where
  | node (upper lower rot : ℕ) (kids : List ToyRegion)

def ToyRegion.upper : ToyRegion → ℕ
  | ToyRegion.node u _ _ _ => u

def ToyRegion.lower : ToyRegion → ℕ
  | ToyRegion.node _ l _ _ => l

def ToyRegion.rot : ToyRegion → ℕ
  | ToyRegion.node _ _ r _ => r

def ToyRegion.kids : ToyRegion → List ToyRegion
  | ToyRegion.node _ _ _ k => k

def toyOps : RBoundOps ToyRegion ℕ :=
  ⟨ToyRegion.upper, ToyRegion.lower, ToyRegion.kids, ToyRegion.rot,
   fun r _ => r, fun a b => compare a.upper b.upper⟩

/-- Seed whose two children tie on the upper bound: the first child (at
the heap root after the pushes) has a zero lower bound, while the second
child raises the incumbent. -/
def toySeed : ToyRegion :=
  ToyRegion.node 0 0 1
    [ToyRegion.node 2 0 7 [], ToyRegion.node 2 2 5 []]

/-- Seed with one child whose upper bound exceeds its lower bound, so the
step neither exits nor prunes it. -/
def toySeed2 : ToyRegion :=
  ToyRegion.node 0 0 3 [ToyRegion.node 5 0 4 []]

/-- Two correspondences reachable through `add_correspondence` with the
identity calibration: pixels `(0,1)` and `(0,0)` give bearings
`(0,1,1)` and `(0,0,1)`; world points `(1,0,0)` and `(0,0,0)`.
The single pair has `u = (1,0,0)` and `v = (0,1,1) × (0,0,1) = (1,0,0)`. -/
noncomputable def exCorres : List (Corres ℝ) :=
  [⟨⟨0, 1, 1⟩, ⟨1, 0, 0⟩⟩, ⟨⟨0, 0, 1⟩, ⟨0, 0, 0⟩⟩]

/-- The single correspondence pair formed from `exCorres`. -/
noncomputable def exPair : CorresPair ℝ :=
  ⟨⟨⟨0, 1, 1⟩, ⟨1, 0, 0⟩⟩, ⟨⟨0, 0, 1⟩, ⟨0, 0, 0⟩⟩⟩

/-- The eighth child produced by `RBPolar::subdivide` on the polar seed:
`θ ∈ [0, π]`, `φ ∈ [0, π/2]`, `a ∈ [0, π]` (centers `π/2`, `π/4`, `π/2`). -/
noncomputable def exPolarChild : RBPolar ℝ :=
  ⟨0, 0, ⟨0, Real.pi⟩, ⟨0, Real.pi / 2⟩, ⟨0, Real.pi⟩,
    CorresPair.makePairs exCorres⟩

/-- The first child produced by `RBAngleAxis::subdivide` on the
angle-axis seed with no correspondences: center `(π/2, π/2, π/2)`,
edge `π`. -/
noncomputable def aaChild0 : RBAngleAxis ℝ :=
  ⟨0, 0, ⟨Real.pi / 2, Real.pi / 2, Real.pi / 2⟩, Real.pi, []⟩

/-- The first child produced by `RBPolar::subdivide` on the polar seed
with no correspondences: `θ ∈ [-π, 0]`, `φ ∈ [-π/2, 0]`, `a ∈ [-π, 0]`. -/
noncomputable def polChild0 : RBPolar ℝ :=
  ⟨0, 0, ⟨-Real.pi, 0⟩, ⟨-(Real.pi / 2), 0⟩, ⟨-Real.pi, 0⟩, []⟩

/-- The angle-axis seed with an empty pair list (what `pose` builds when
fewer than two correspondences are held). -/
noncomputable def aaSeedNil : RBAngleAxis ℝ :=
  ⟨0, 0, ⟨0, 0, 0⟩, 2 * Real.pi, []⟩

/-- The eight children of `aaSeedNil`, in source order. -/
noncomputable def aaKidsNil : List (RBAngleAxis ℝ) :=
  [aaChild0,
   ⟨0, 0, ⟨Real.pi / 2, Real.pi / 2, -(Real.pi / 2)⟩, Real.pi, []⟩,
   ⟨0, 0, ⟨Real.pi / 2, -(Real.pi / 2), Real.pi / 2⟩, Real.pi, []⟩,
   ⟨0, 0, ⟨Real.pi / 2, -(Real.pi / 2), -(Real.pi / 2)⟩, Real.pi, []⟩,
   ⟨0, 0, ⟨-(Real.pi / 2), Real.pi / 2, Real.pi / 2⟩, Real.pi, []⟩,
   ⟨0, 0, ⟨-(Real.pi / 2), Real.pi / 2, -(Real.pi / 2)⟩, Real.pi, []⟩,
   ⟨0, 0, ⟨-(Real.pi / 2), -(Real.pi / 2), Real.pi / 2⟩, Real.pi, []⟩,
   ⟨0, 0, ⟨-(Real.pi / 2), -(Real.pi / 2), -(Real.pi / 2)⟩, Real.pi, []⟩]

/-- The polar seed with an empty pair list. -/
noncomputable def polSeedNil : RBPolar ℝ :=
  ⟨0, 0, ⟨-Real.pi, Real.pi⟩, ⟨-(Real.pi / 2), Real.pi / 2⟩,
    ⟨-Real.pi, Real.pi⟩, []⟩

/-- The eight children of `polSeedNil`, in source order. -/
noncomputable def polKidsNil : List (RBPolar ℝ) :=
  [polChild0,
   ⟨0, 0, ⟨-Real.pi, 0⟩, ⟨-(Real.pi / 2), 0⟩, ⟨0, Real.pi⟩, []⟩,
   ⟨0, 0, ⟨-Real.pi, 0⟩, ⟨0, Real.pi / 2⟩, ⟨-Real.pi, 0⟩, []⟩,
   ⟨0, 0, ⟨-Real.pi, 0⟩, ⟨0, Real.pi / 2⟩, ⟨0, Real.pi⟩, []⟩,
   ⟨0, 0, ⟨0, Real.pi⟩, ⟨-(Real.pi / 2), 0⟩, ⟨-Real.pi, 0⟩, []⟩,
   ⟨0, 0, ⟨0, Real.pi⟩, ⟨-(Real.pi / 2), 0⟩, ⟨0, Real.pi⟩, []⟩,
   ⟨0, 0, ⟨0, Real.pi⟩, ⟨0, Real.pi / 2⟩, ⟨-Real.pi, 0⟩, []⟩,
   ⟨0, 0, ⟨0, Real.pi⟩, ⟨0, Real.pi / 2⟩, ⟨0, Real.pi⟩, []⟩]

/-- Angle-axis regions over the scalar carrier `Option ℝ`, where `none`
plays the role of an f32 NaN in every geometric field. -/
def nanAngleAxis1 : RBAngleAxis (Option ℝ) :=
  ⟨1, 0, ⟨none, none, none⟩, none, []⟩

def nanAngleAxis2 : RBAngleAxis (Option ℝ) :=
  ⟨0, 0, ⟨none, none, none⟩, none, []⟩

def nanPolar1 : RBPolar (Option ℝ) :=
  ⟨1, 0, ⟨none, none⟩, ⟨none, none⟩, ⟨none, none⟩, []⟩

def nanPolar2 : RBPolar (Option ℝ) :=
  ⟨0, 5, ⟨none, none⟩, ⟨none, none⟩, ⟨none, none⟩, []⟩

/-- A singular calibration: `fx = 0` makes the intrinsic matrix
non-invertible. -/
def singularK : CameraK := ⟨0, 1, 0, 0⟩

/-! ## Heap lemmas -/

theorem hSwap_subset {α : Type} {l : List α} {i j : ℕ} {x : α}
    (h : x ∈ hSwap l i j) : x ∈ l := by
  unfold hSwap at h
  rcases hi : l.get? i with _ | a <;> rcases hj : l.get? j with _ | b <;>
    rw [hi, hj] at h <;> try exact h
  rcases List.mem_or_eq_of_mem_set h with h1 | h1
  · rcases List.mem_or_eq_of_mem_set h1 with h2 | h2
    · exact h2
    · exact h2 ▸ List.get?_mem hj
  · exact h1 ▸ List.get?_mem hi

theorem siftDownF_subset {α : Type} (cmp : α → α → Ordering) :
    ∀ (fuel : ℕ) (l : List α) (pos : ℕ) {x : α},
      x ∈ siftDownF cmp fuel l pos → x ∈ l := by
  intro fuel
  induction fuel with
  | zero => intro l pos x h; exact h
  | succ n ih =>
    intro l pos x h
    unfold siftDownF at h
    split at h
    all_goals try split at h
    all_goals try split at h
    all_goals
      first
      | exact hSwap_subset (ih _ _ h)
      | exact h

theorem siftUpF_subset {α : Type} (cmp : α → α → Ordering) :
    ∀ (fuel : ℕ) (l : List α) (pos : ℕ) {x : α},
      x ∈ siftUpF cmp fuel l pos → x ∈ l := by
  intro fuel
  induction fuel with
  | zero => intro l pos x h; exact h
  | succ n ih =>
    intro l pos x h
    match pos with
    | 0 => exact h
    | pos + 1 =>
      unfold siftUpF at h
      split at h
      all_goals try split at h
      all_goals
        first
        | exact hSwap_subset (ih _ _ h)
        | exact h

theorem siftToBottomF_subset {α : Type} (cmp : α → α → Ordering) :
    ∀ (fuel : ℕ) (l : List α) (pos : ℕ) {x : α},
      x ∈ (siftToBottomF cmp fuel l pos).1 → x ∈ l := by
  intro fuel
  induction fuel with
  | zero => intro l pos x h; exact h
  | succ n ih =>
    intro l pos x h
    unfold siftToBottomF at h
    split at h
    all_goals try split at h
    all_goals
      first
      | exact hSwap_subset (ih _ _ h)
      | exact h

theorem heapRebuild_subset {α : Type} (cmp : α → α → Ordering)
    {l : List α} {x : α} (h : x ∈ heapRebuild cmp l) : x ∈ l := by
  unfold heapRebuild at h
  generalize (List.range (l.length / 2)).reverse = idxs at h
  induction idxs generalizing l with
  | nil => exact h
  | cons i rest ih =>
    rw [List.foldl_cons] at h
    exact siftDownF_subset cmp _ _ _ (ih h)

theorem heapRetain_mem {α : Type} (cmp : α → α → Ordering)
    {pred : α → Bool} {l : List α} {x : α}
    (h : x ∈ heapRetain cmp pred l) : x ∈ l ∧ pred x = true := by
  have h1 := heapRebuild_subset cmp h
  exact ⟨List.mem_of_mem_filter h1, List.of_mem_filter h1⟩

theorem heapPush_of_ties {α : Type} (cmp : α → α → Ordering)
    (l : List α) (x : α) (h : ∀ e ∈ l, cmp x e ≠ Ordering.gt) :
    heapPush cmp l x = l ++ [x] := by
  rcases l with _ | ⟨y, ys⟩
  · rfl
  · have hx : ((y :: ys) ++ [x]).get? (ys.length + 1) = some x :=
      List.get?_concat_length (y :: ys) x
    show siftUpF cmp (ys.length + 1 + 1) ((y :: ys) ++ [x]) (ys.length + 1) =
      (y :: ys) ++ [x]
    unfold siftUpF
    split
    · rename_i e p he hp
      have hex : e = x := Option.some.inj (he.symm.trans hx)
      have hlt : ys.length / 2 < (y :: ys).length := by
        simp only [List.length_cons]; omega
      have hp2 : (y :: ys).get? (ys.length / 2) = some p :=
        (List.get?_append hlt).symm.trans hp
      rw [if_neg (hex ▸ h p (List.get?_mem hp2))]
    · rfl

theorem heapExtend_of_ties {α : Type} (cmp : α → α → Ordering) :
    ∀ (xs l : List α),
      (∀ a ∈ xs, ∀ b ∈ l ++ xs, cmp a b ≠ Ordering.gt) →
      heapExtend cmp l xs = l ++ xs := by
  intro xs
  induction xs with
  | nil => intro l _; simp [heapExtend]
  | cons a rest ih =>
    intro l h
    unfold heapExtend
    rw [List.foldl_cons]
    have hpush : heapPush cmp l a = l ++ [a] := by
      refine heapPush_of_ties cmp l a ?_
      intro e he
      exact h a (List.mem_cons_self a rest) e (List.mem_append_left _ he)
    rw [hpush]
    have : heapExtend cmp (l ++ [a]) rest = (l ++ [a]) ++ rest := by
      refine ih (l ++ [a]) ?_
      intro a1 ha1 b hb
      refine h a1 (List.mem_cons_of_mem a ha1) b ?_
      rw [List.append_assoc] at hb
      simpa using hb
    show heapExtend cmp (l ++ [a]) rest = l ++ a :: rest
    rw [this]
    simp

theorem siftDownF_of_ties {α : Type} (cmp : α → α → Ordering)
    (fuel : ℕ) (l : List α) (pos : ℕ)
    (h : ∀ a ∈ l, ∀ b ∈ l, cmp a b ≠ Ordering.lt) :
    siftDownF cmp fuel l pos = l := by
  match fuel with
  | 0 => rfl
  | n + 1 =>
    unfold siftDownF
    split
    · rename_i e c1 c2 h0 h1 h2
      split
      · rw [if_neg (h e (List.get?_mem h0) c1 (List.get?_mem h1))]
      · rw [if_neg (h e (List.get?_mem h0) c2 (List.get?_mem h2))]
    · rename_i e c1 h0 h1 h2
      rw [if_neg (h e (List.get?_mem h0) c1 (List.get?_mem h1))]
    · rfl

theorem heapRebuild_of_ties {α : Type} (cmp : α → α → Ordering)
    (l : List α) (h : ∀ a ∈ l, ∀ b ∈ l, cmp a b ≠ Ordering.lt) :
    heapRebuild cmp l = l := by
  unfold heapRebuild
  generalize (List.range (l.length / 2)).reverse = idxs
  induction idxs with
  | nil => rfl
  | cons i rest ih =>
    rw [List.foldl_cons, siftDownF_of_ties cmp _ l i h, ih]

theorem updateSolution_fst_le {R M : Type} (ops : RBoundOps R M) :
    ∀ (q : List R) (lb : ℕ) (dom : M), lb ≤ (updateSolution ops q lb dom).1 := by
  intro q
  induction q with
  | nil => intro lb dom; exact le_refl lb
  | cons b rest ih =>
    intro lb dom
    unfold updateSolution
    rw [List.foldl_cons]
    by_cases hb : lb < ops.lower b
    · rw [if_pos hb]
      exact le_of_lt (lt_of_lt_of_le hb (ih (ops.lower b) (ops.rotation b)))
    · rw [if_neg hb]
      exact ih lb dom

/-! ## Bound-computation characterization -/

theorem aaRotation_update (acc : RBAngleAxis ℝ) (u w : ℕ) :
    RBAngleAxis.rotation ⟨u, w, acc.center, acc.edge, acc.corres_pairs⟩ =
      acc.rotation := rfl

theorem aaBoundStep_eq (t : ℝ) (acc : RBAngleAxis ℝ) (p : CorresPair ℝ) :
    RBAngleAxis.boundStep t acc p =
      ⟨acc.upper + (if |p.uv.vRuAngle acc.rotation - Real.pi / 2| <
          t + Real.sqrt 3 * (acc.edge / 2) then 1 else 0),
       acc.lower + (if |p.uv.vRuAngle acc.rotation - Real.pi / 2| < t then 1 else 0),
       acc.center, acc.edge, acc.corres_pairs⟩ := by
  unfold RBAngleAxis.boundStep
  by_cases h1 : |p.uv.vRuAngle acc.rotation - Real.pi / 2| <
      t + Real.sqrt 3 * (acc.edge / 2) <;>
    by_cases h2 : |p.uv.vRuAngle acc.rotation - Real.pi / 2| < t <;>
    simp [h1, h2]

theorem aaFold_counts (t : ℝ) :
    ∀ (pairs : List (CorresPair ℝ)) (acc : RBAngleAxis ℝ),
      (pairs.foldl (RBAngleAxis.boundStep t) acc).lower =
        acc.lower + pairs.countP
          (fun p => decide (|p.uv.vRuAngle acc.rotation - Real.pi / 2| < t)) ∧
      (pairs.foldl (RBAngleAxis.boundStep t) acc).upper =
        acc.upper + pairs.countP
          (fun p => decide (|p.uv.vRuAngle acc.rotation - Real.pi / 2| <
            t + Real.sqrt 3 * (acc.edge / 2))) := by
  intro pairs
  induction pairs with
  | nil => intro acc; simp
  | cons p rest ih =>
    intro acc
    rw [List.foldl_cons, aaBoundStep_eq]
    have h := ih ⟨acc.upper + (if |p.uv.vRuAngle acc.rotation - Real.pi / 2| <
        t + Real.sqrt 3 * (acc.edge / 2) then 1 else 0),
      acc.lower + (if |p.uv.vRuAngle acc.rotation - Real.pi / 2| < t then 1 else 0),
      acc.center, acc.edge, acc.corres_pairs⟩
    dsimp only at h
    simp only [aaRotation_update] at h
    refine ⟨?_, ?_⟩
    · rw [h.1, List.countP_cons]
      simp only [decide_eq_true_eq]
      split <;> omega
    · rw [h.2, List.countP_cons]
      simp only [decide_eq_true_eq]
      split <;> omega

theorem polRotation_update (acc : RBPolar ℝ) (u w : ℕ) :
    RBPolar.rotation ⟨u, w, acc.theta, acc.phi, acc.angle, acc.corres_pairs⟩ =
      acc.rotation := rfl

theorem polBoundStep_eq (t : ℝ) (acc : RBPolar ℝ) (p : CorresPair ℝ) :
    RBPolar.boundStep t acc p =
      ⟨acc.upper + (if |p.uv.vRuAngle acc.rotation - Real.pi / 2| <
          t + acc.angle.length * acc.theta.length * acc.phi.length / 8 then 1 else 0),
       acc.lower + (if |p.uv.vRuAngle acc.rotation - Real.pi / 2| < t then 1 else 0),
       acc.theta, acc.phi, acc.angle, acc.corres_pairs⟩ := by
  unfold RBPolar.boundStep
  by_cases h1 : |p.uv.vRuAngle acc.rotation - Real.pi / 2| <
      t + acc.angle.length * acc.theta.length * acc.phi.length / 8 <;>
    by_cases h2 : |p.uv.vRuAngle acc.rotation - Real.pi / 2| < t <;>
    simp only [UV.vRuAngle] at h1 h2 <;>
    simp [h1, h2, UV.vRuAngle]

theorem polFold_counts (t : ℝ) :
    ∀ (pairs : List (CorresPair ℝ)) (acc : RBPolar ℝ),
      (pairs.foldl (RBPolar.boundStep t) acc).lower =
        acc.lower + pairs.countP
          (fun p => decide (|p.uv.vRuAngle acc.rotation - Real.pi / 2| < t)) ∧
      (pairs.foldl (RBPolar.boundStep t) acc).upper =
        acc.upper + pairs.countP
          (fun p => decide (|p.uv.vRuAngle acc.rotation - Real.pi / 2| <
            t + acc.angle.length * acc.theta.length * acc.phi.length / 8)) := by
  intro pairs
  induction pairs with
  | nil => intro acc; simp
  | cons p rest ih =>
    intro acc
    rw [List.foldl_cons, polBoundStep_eq]
    have h := ih ⟨acc.upper + (if |p.uv.vRuAngle acc.rotation - Real.pi / 2| <
        t + acc.angle.length * acc.theta.length * acc.phi.length / 8 then 1 else 0),
      acc.lower + (if |p.uv.vRuAngle acc.rotation - Real.pi / 2| < t then 1 else 0),
      acc.theta, acc.phi, acc.angle, acc.corres_pairs⟩
    dsimp only at h
    simp only [polRotation_update] at h
    refine ⟨?_, ?_⟩
    · rw [h.1, List.countP_cons]
      simp only [decide_eq_true_eq]
      split <;> omega
    · rw [h.2, List.countP_cons]
      simp only [decide_eq_true_eq]
      split <;> omega

theorem updateSolution_of_le {R M : Type} (ops : RBoundOps R M) :
    ∀ (q : List R) (lb : ℕ) (dom : M),
      (∀ r ∈ q, ops.lower r ≤ lb) → updateSolution ops q lb dom = (lb, dom) := by
  intro q
  induction q with
  | nil => intro lb dom _; rfl
  | cons b rest ih =>
    intro lb dom h
    unfold updateSolution
    rw [List.foldl_cons,
      if_neg (not_lt_of_le (h b (List.mem_cons_self b rest)))]
    exact ih lb dom (fun r hr => h r (List.mem_cons_of_mem b hr))

/-! ## Engine step lemmas -/

theorem afterBranch_queue_bound {R M : Type} (ops : RBoundOps R M) (t : ℝ)
    (st : BnBState R M) (bound : R) (rest : List R) (r : R)
    (hr : r ∈ (afterBranch ops t st bound rest).queue) :
    (afterBranch ops t st bound rest).lower_bound ≤ ops.upper r := by
  unfold afterBranch at hr ⊢
  dsimp only at hr ⊢
  have h := heapRetain_mem ops.cmp hr
  exact of_decide_eq_true h.2

theorem afterBranch_lb_mono {R M : Type} (ops : RBoundOps R M) (t : ℝ)
    (st : BnBState R M) (bound : R) (rest : List R) :
    st.lower_bound ≤ (afterBranch ops t st bound rest).lower_bound := by
  unfold afterBranch
  dsimp only
  exact updateSolution_fst_le ops _ st.lower_bound st.domain

theorem bnbStep_next_eq {R M : Type} (ops : RBoundOps R M) (t : ℝ)
    (st st1 : BnBState R M) (h : bnbStep ops t st = StepRes.next st1) :
    ∃ bound rest, heapPop ops.cmp st.queue = some (bound, rest) ∧
      st1 = afterBranch ops t st bound rest := by
  unfold bnbStep at h
  split at h
  · exact absurd h (by simp)
  · rename_i bound rest heq
    refine ⟨bound, rest, heq, ?_⟩
    dsimp only at h
    split at h
    · split at h
      · exact absurd h (by simp)
      · cases h; rfl
    · cases h; rfl

theorem bnbStep_done_eq {R M : Type} (ops : RBoundOps R M) (t : ℝ)
    (st : BnBState R M) (r : M) (h : bnbStep ops t st = StepRes.done r) :
    (heapPop ops.cmp st.queue = none ∧ r = st.domain) ∨
    (∃ bound rest h0 tl,
      heapPop ops.cmp st.queue = some (bound, rest) ∧
      (afterBranch ops t st bound rest).queue = h0 :: tl ∧
      ops.upper h0 = (afterBranch ops t st bound rest).lower_bound ∧
      r = ops.rotation h0) := by
  unfold bnbStep at h
  split at h
  · rename_i heq
    left
    cases h
    exact ⟨heq, rfl⟩
  · rename_i bound rest heq
    right
    dsimp only at h
    split at h
    · rename_i h0 hh
      split at h
      · rename_i hup
        cases h
        rcases hq : (afterBranch ops t st bound rest).queue with _ | ⟨a, tl⟩
        · rw [hq] at hh; exact absurd hh (by simp)
        · rw [hq] at hh
          simp only [List.head?_cons, Option.some.injEq] at hh
          exact ⟨bound, rest, h0, tl, heq, by rw [hq, hh], hup, rfl⟩
      · exact absurd h (by simp)
    · exact absurd h (by simp)

/-! ## Evaluation of the first search step on fewer than two
correspondences -/

theorem makePairs_short {S : Type} (corres : List (Corres S))
    (h : corres.length < 2) : CorresPair.makePairs corres = [] := by
  rcases corres with _ | ⟨a, _ | ⟨b, rest⟩⟩
  · rfl
  · rfl
  · simp at h
    omega

theorem aaCmp_eq {S : Type} {a b : RBAngleAxis S}
    (hu : a.upper = b.upper) (hl : a.lower = b.lower) :
    RBAngleAxis.cmp a b = Ordering.eq := by
  unfold RBAngleAxis.cmp
  rw [Nat.compare_eq_eq.mpr hu, Nat.compare_eq_eq.mpr hl]

theorem polCmp_eq {S : Type} {a b : RBPolar S}
    (hu : a.upper = b.upper) : RBPolar.cmp a b = Ordering.eq := by
  unfold RBPolar.cmp
  rw [Nat.compare_eq_eq.mpr hu]

theorem aaSeedNil_subdivide : RBAngleAxis.subdivide aaSeedNil = aaKidsNil := by
  unfold aaSeedNil RBAngleAxis.subdivide aaKidsNil aaChild0
  norm_num
  ring

theorem polSeedNil_subdivide : RBPolar.subdivide polSeedNil = polKidsNil := by
  unfold polSeedNil RBPolar.subdivide polKidsNil polChild0 Range.divide Range.center
  norm_num

theorem aaKidsNil_shape :
    ∀ c ∈ aaKidsNil, c.upper = 0 ∧ c.lower = 0 ∧ c.corres_pairs = [] := by
  intro c hc
  unfold aaKidsNil at hc
  simp only [List.mem_cons, List.not_mem_nil, or_false] at hc
  rcases hc with rfl | rfl | rfl | rfl | rfl | rfl | rfl | rfl <;>
    exact ⟨rfl, rfl, rfl⟩

theorem polKidsNil_shape :
    ∀ c ∈ polKidsNil, c.upper = 0 ∧ c.lower = 0 ∧ c.corres_pairs = [] := by
  intro c hc
  unfold polKidsNil at hc
  simp only [List.mem_cons, List.not_mem_nil, or_false] at hc
  rcases hc with rfl | rfl | rfl | rfl | rfl | rfl | rfl | rfl <;>
    exact ⟨rfl, rfl, rfl⟩

theorem afterBranch_aaSeedNil (t : ℝ) :
    afterBranch rbAngleAxisOps t ⟨0, Mat3.identity, [aaSeedNil]⟩ aaSeedNil [] =
      ⟨0, Mat3.identity, aaKidsNil⟩ := by
  have hshape := aaKidsNil_shape
  have hcmp : ∀ a ∈ aaKidsNil, ∀ b ∈ aaKidsNil,
      RBAngleAxis.cmp a b = Ordering.eq := by
    intro a ha b hb
    exact aaCmp_eq
      ((hshape a ha).1.trans (hshape b hb).1.symm)
      ((hshape a ha).2.1.trans (hshape b hb).2.1.symm)
  have hdiv : (rbAngleAxisOps.subdivide aaSeedNil).map
      (fun d => rbAngleAxisOps.computeBound d t) = aaKidsNil := by
    show (RBAngleAxis.subdivide aaSeedNil).map
      (fun d => RBAngleAxis.computeBound d t) = aaKidsNil
    rw [aaSeedNil_subdivide]
    rfl
  have hext : heapExtend rbAngleAxisOps.cmp [] aaKidsNil = aaKidsNil := by
    show heapExtend RBAngleAxis.cmp [] aaKidsNil = aaKidsNil
    have h := heapExtend_of_ties RBAngleAxis.cmp aaKidsNil []
      (by
        intro a ha b hb
        rw [List.nil_append] at hb
        rw [hcmp a ha b hb]
        simp)
    simpa using h
  have hupd : updateSolution rbAngleAxisOps aaKidsNil 0 Mat3.identity =
      (0, Mat3.identity) := by
    refine updateSolution_of_le rbAngleAxisOps aaKidsNil 0 Mat3.identity ?_
    intro r hr
    show r.lower ≤ 0
    rw [(hshape r hr).2.1]
  have hret : heapRetain rbAngleAxisOps.cmp
      (fun b => decide (0 ≤ rbAngleAxisOps.upper b)) aaKidsNil = aaKidsNil := by
    show heapRetain RBAngleAxis.cmp
      (fun b => decide (0 ≤ RBAngleAxis.upper b)) aaKidsNil = aaKidsNil
    unfold heapRetain
    rw [List.filter_eq_self.mpr (by intro a _; simp)]
    exact heapRebuild_of_ties RBAngleAxis.cmp aaKidsNil
      (by intro a ha b hb; rw [hcmp a ha b hb]; simp)
  unfold afterBranch
  dsimp only
  rw [hdiv, hext, hupd]
  dsimp only
  rw [hret]

theorem afterBranch_polSeedNil (t : ℝ) :
    afterBranch rbPolarOps t ⟨0, Mat3.identity, [polSeedNil]⟩ polSeedNil [] =
      ⟨0, Mat3.identity, polKidsNil⟩ := by
  have hshape := polKidsNil_shape
  have hcmp : ∀ a ∈ polKidsNil, ∀ b ∈ polKidsNil,
      RBPolar.cmp a b = Ordering.eq := by
    intro a ha b hb
    exact polCmp_eq ((hshape a ha).1.trans (hshape b hb).1.symm)
  have hdiv : (rbPolarOps.subdivide polSeedNil).map
      (fun d => rbPolarOps.computeBound d t) = polKidsNil := by
    show (RBPolar.subdivide polSeedNil).map
      (fun d => RBPolar.computeBound d t) = polKidsNil
    rw [polSeedNil_subdivide]
    rfl
  have hext : heapExtend rbPolarOps.cmp [] polKidsNil = polKidsNil := by
    show heapExtend RBPolar.cmp [] polKidsNil = polKidsNil
    have h := heapExtend_of_ties RBPolar.cmp polKidsNil []
      (by
        intro a ha b hb
        rw [List.nil_append] at hb
        rw [hcmp a ha b hb]
        simp)
    simpa using h
  have hupd : updateSolution rbPolarOps polKidsNil 0 Mat3.identity =
      (0, Mat3.identity) := by
    refine updateSolution_of_le rbPolarOps polKidsNil 0 Mat3.identity ?_
    intro r hr
    show r.lower ≤ 0
    rw [(hshape r hr).2.1]
  have hret : heapRetain rbPolarOps.cmp
      (fun b => decide (0 ≤ rbPolarOps.upper b)) polKidsNil = polKidsNil := by
    show heapRetain RBPolar.cmp
      (fun b => decide (0 ≤ RBPolar.upper b)) polKidsNil = polKidsNil
    unfold heapRetain
    rw [List.filter_eq_self.mpr (by intro a _; simp)]
    exact heapRebuild_of_ties RBPolar.cmp polKidsNil
      (by intro a ha b hb; rw [hcmp a ha b hb]; simp)
  unfold afterBranch
  dsimp only
  rw [hdiv, hext, hupd]
  dsimp only
  rw [hret]

theorem bnbStep_aaSeedNil (t : ℝ) :
    bnbStep rbAngleAxisOps t ⟨0, Mat3.identity, [aaSeedNil]⟩ =
      StepRes.done (RBAngleAxis.rotation aaChild0) := by
  unfold bnbStep
  have hpop : heapPop rbAngleAxisOps.cmp [aaSeedNil] = some (aaSeedNil, []) := rfl
  rw [hpop]
  dsimp only
  rw [afterBranch_aaSeedNil t]
  show (match (aaKidsNil.head?) with
    | some h => if rbAngleAxisOps.upper h = 0 then
        StepRes.done (rbAngleAxisOps.rotation h)
      else StepRes.next ⟨0, Mat3.identity, aaKidsNil⟩
    | none => StepRes.next ⟨0, Mat3.identity, aaKidsNil⟩) =
    StepRes.done (RBAngleAxis.rotation aaChild0)
  rfl

theorem bnbStep_polSeedNil (t : ℝ) :
    bnbStep rbPolarOps t ⟨0, Mat3.identity, [polSeedNil]⟩ =
      StepRes.done (RBPolar.rotation polChild0) := by
  unfold bnbStep
  have hpop : heapPop rbPolarOps.cmp [polSeedNil] = some (polSeedNil, []) := rfl
  rw [hpop]
  dsimp only
  rw [afterBranch_polSeedNil t]
  show (match (polKidsNil.head?) with
    | some h => if rbPolarOps.upper h = 0 then
        StepRes.done (rbPolarOps.rotation h)
      else StepRes.next ⟨0, Mat3.identity, polKidsNil⟩
    | none => StepRes.next ⟨0, Mat3.identity, polKidsNil⟩) =
    StepRes.done (RBPolar.rotation polChild0)
  rfl

/-! ## Evaluation of the residual at the example polar child -/

theorem exPair_uv : exPair.uv = ⟨⟨1, 0, 0⟩, ⟨1, 0, 0⟩⟩ := by
  unfold exPair CorresPair.uv Corres.computeUV Vec3.sub Vec3.cross
  norm_num

theorem exChild_rotation :
    RBPolar.rotation exPolarChild =
      RBPolar.rotationAt (Real.pi/2) (Real.pi/4) (Real.pi/2) := by
  have h1 : Range.center (⟨0, Real.pi⟩ : Range ℝ) = Real.pi/2 := by
    unfold Range.center; ring
  have h2 : Range.center (⟨0, Real.pi/2⟩ : Range ℝ) = Real.pi/4 := by
    unfold Range.center; ring
  unfold RBPolar.rotation exPolarChild
  dsimp only
  rw [h1, h2]

theorem exChild_mulVec :
    (RBPolar.rotationAt (Real.pi/2) (Real.pi/4) (Real.pi/2)).mulVec ⟨1, 0, 0⟩ =
      ⟨1/2, 1/2, -(Real.sqrt 2 / 2)⟩ := by
  have hs2 : Real.sqrt 2 * Real.sqrt 2 = 2 := Real.mul_self_sqrt (by norm_num)
  unfold RBPolar.rotationAt Mat3.fromAxisAngle Mat3.mulVec
  dsimp only
  rw [Real.sin_pi_div_two, Real.cos_pi_div_two, Real.cos_pi_div_four,
    Real.sin_pi_div_four]
  simp only [Vec3.mk.injEq]
  refine ⟨by linear_combination (1/4) * hs2, by linear_combination (1/4) * hs2,
    by ring⟩

theorem angleBetween_exChild :
    Vec3.angleBetween ⟨1, 0, 0⟩ ⟨1/2, 1/2, -(Real.sqrt 2 / 2)⟩ = Real.pi/3 := by
  have hs2 : Real.sqrt 2 * Real.sqrt 2 = 2 := Real.mul_self_sqrt (by norm_num)
  unfold Vec3.angleBetween Vec3.dot Vec3.lengthSquared
  dsimp only
  rw [show (1:ℝ) * (1/2) + 0 * (1/2) + 0 * -(Real.sqrt 2 / 2) = 1/2 by ring]
  rw [show ((1:ℝ) * 1 + 0 * 0 + 0 * 0) *
      ((1:ℝ)/2 * (1/2) + 1/2 * (1/2) + -(Real.sqrt 2 / 2) * -(Real.sqrt 2 / 2)) = 1 by
    linear_combination (1/4) * hs2]
  rw [Real.sqrt_one, div_one, ← Real.cos_pi_div_three]
  exact Real.arccos_cos (by positivity) (by linarith [Real.pi_pos])

theorem exChild_vRuAngle :
    exPair.uv.vRuAngle (RBPolar.rotation exPolarChild) = Real.pi/3 := by
  rw [exPair_uv, exChild_rotation]
  unfold UV.vRuAngle
  dsimp only
  rw [exChild_mulVec]
  exact angleBetween_exChild

theorem exInside_mulVec :
    (RBPolar.rotationAt (Real.pi/2) 0 (Real.pi/2)).mulVec ⟨1, 0, 0⟩ =
      ⟨1, 0, 0⟩ := by
  unfold RBPolar.rotationAt Mat3.fromAxisAngle Mat3.mulVec
  dsimp only
  rw [Real.sin_pi_div_two, Real.cos_pi_div_two, Real.cos_zero, Real.sin_zero]
  simp only [Vec3.mk.injEq]
  refine ⟨by ring, by ring, by ring⟩

theorem exInside_vRuAngle :
    exPair.uv.vRuAngle (RBPolar.rotationAt (Real.pi/2) 0 (Real.pi/2)) = 0 := by
  rw [exPair_uv]
  unfold UV.vRuAngle
  dsimp only
  rw [exInside_mulVec]
  unfold Vec3.angleBetween Vec3.dot Vec3.lengthSquared
  dsimp only
  norm_num

theorem polFold_geom (t : ℝ) :
    ∀ (ps : List (CorresPair ℝ)) (acc : RBPolar ℝ),
      (ps.foldl (RBPolar.boundStep t) acc).theta = acc.theta ∧
      (ps.foldl (RBPolar.boundStep t) acc).phi = acc.phi ∧
      (ps.foldl (RBPolar.boundStep t) acc).angle = acc.angle := by
  intro ps
  induction ps with
  | nil => intro acc; exact ⟨rfl, rfl, rfl⟩
  | cons p rest ih =>
    intro acc
    rw [List.foldl_cons, polBoundStep_eq]
    exact ih _

theorem exChild_mem :
    exPolarChild ∈ RBPolar.subdivide (poseSeedPolar exCorres) := by
  unfold poseSeedPolar RBPolar.new RBPolar.subdivide Range.divide Range.center
    exPolarChild
  dsimp only
  simp only [List.mem_cons, List.not_mem_nil, or_false]
  iterate 7 right
  simp only [RBPolar.mk.injEq, Range.mk.injEq]
  norm_num

theorem exChild_bound_lower :
    (RBPolar.computeBound exPolarChild (Real.pi/2)).lower = 1 := by
  have hcount := (polFold_counts (Real.pi/2) exPolarChild.corres_pairs exPolarChild).1
  unfold RBPolar.computeBound
  rw [hcount]
  rw [show exPolarChild.corres_pairs = [exPair] from rfl]
  rw [List.countP_cons, List.countP_nil]
  have hprop : |exPair.uv.vRuAngle exPolarChild.rotation - Real.pi/2| <
      Real.pi/2 := by
    rw [exChild_vRuAngle]
    rw [show Real.pi/3 - Real.pi/2 = -(Real.pi/6) by ring]
    rw [abs_neg, abs_of_nonneg (by positivity)]
    linarith [Real.pi_pos]
  simp [hprop]
  rfl

theorem exInside_count :
    inlierCount (CorresPair.makePairs exCorres)
      (RBPolar.rotationAt (Real.pi/2) 0 (Real.pi/2)) (Real.pi/2) = 0 := by
  unfold inlierCount
  rw [show CorresPair.makePairs exCorres = [exPair] from rfl]
  rw [List.countP_cons, List.countP_nil]
  have hprop : ¬ (|exPair.uv.vRuAngle
      (RBPolar.rotationAt (Real.pi/2) 0 (Real.pi/2)) - Real.pi/2| <
        Real.pi/2) := by
    rw [exInside_vRuAngle]
    rw [show (0:ℝ) - Real.pi/2 = -(Real.pi/2) by ring]
    rw [abs_neg, abs_of_nonneg (by positivity)]
    exact lt_irrefl _
  simp [hprop]

/-! ## Interval-halving lemmas for the tiling property -/

theorem halfCoverHigh (c e xv : ℝ) (h : |xv - c| ≤ e/2) (hc : c ≤ xv) :
    |xv - (c + e/4)| ≤ e/2/2 := by
  rw [abs_le] at h ⊢
  constructor <;> linarith [h.1, h.2]

theorem halfCoverLow (c e xv : ℝ) (h : |xv - c| ≤ e/2) (hc : xv ≤ c) :
    |xv - (c - e/4)| ≤ e/2/2 := by
  rw [abs_le] at h ⊢
  constructor <;> linarith [h.1, h.2]

theorem poseRot_aa_short (rt tt : ℝ) (corres : List (Corres ℝ))
    (h : corres.length < 2) :
    Solver.poseRot 1 ⟨corres, rt, tt, RotationBound.angleAxis⟩ =
      some (RBAngleAxis.rotation aaChild0) := by
  have hseed : poseSeedAngleAxis corres = aaSeedNil := by
    unfold poseSeedAngleAxis RBAngleAxis.new aaSeedNil
    rw [makePairs_short corres h]
  unfold Solver.poseRot
  dsimp only
  rw [hseed]
  unfold bnbRot3
  have hfrom : heapFromList rbAngleAxisOps.cmp [aaSeedNil] = [aaSeedNil] := rfl
  rw [hfrom]
  unfold bnbLoop
  rw [bnbStep_aaSeedNil rt]

theorem aaChild0_rotation_ne :
    RBAngleAxis.rotation aaChild0 ≠ Mat3.identity := by
  have hπ := Real.pi_pos
  have hlen : (Vec3.mk (Real.pi/2) (Real.pi/2) (Real.pi/2) : Vec3 ℝ).length
      = Real.sqrt 3 * (Real.pi / 2) := by
    unfold Vec3.length Vec3.lengthSquared
    dsimp only
    rw [show Real.pi/2 * (Real.pi/2) + Real.pi/2 * (Real.pi/2) +
        Real.pi/2 * (Real.pi/2) = 3 * (Real.pi/2)^2 by ring]
    rw [Real.sqrt_mul (by norm_num) ((Real.pi/2)^2), Real.sqrt_sq (by positivity)]
  have hpos : 0 < (Vec3.mk (Real.pi/2) (Real.pi/2) (Real.pi/2) : Vec3 ℝ).length := by
    rw [hlen]; positivity
  unfold RBAngleAxis.rotation aaChild0
  dsimp only
  unfold Vec3.tryNormalize
  rw [if_pos hpos]
  dsimp only
  intro heq
  have hz := congrArg (fun m : Mat3 ℝ => m.zAxis.z) heq
  simp only [Mat3.fromAxisAngle, Vec3.smul, Mat3.identity] at hz
  rw [hlen] at hz
  have hs3 : Real.sqrt 3 * Real.sqrt 3 = 3 := Real.mul_self_sqrt (by norm_num)
  have hs3pos : 0 < Real.sqrt 3 := Real.sqrt_pos.mpr (by norm_num)
  have haz : (Real.sqrt 3 * (Real.pi/2))⁻¹ * (Real.pi/2) *
      ((Real.sqrt 3 * (Real.pi/2))⁻¹ * (Real.pi/2)) = 1/3 := by
    rw [mul_inv]
    field_simp
    nlinarith [hs3]
  rw [haz] at hz
  have hc : Real.cos (Real.sqrt 3 * (Real.pi/2)) = 1 := by linarith
  rcases (Real.cos_eq_one_iff _).mp hc with ⟨n, hn⟩
  have h2 : (2 * (n:ℝ)) * Real.pi = (Real.sqrt 3 / 2) * Real.pi := by
    linear_combination hn
  have h3 : 2 * (n:ℝ) = Real.sqrt 3 / 2 :=
    mul_right_cancel₀ Real.pi_ne_zero h2
  have hirr : Irrational (Real.sqrt 3) := by
    have h := (Nat.prime_three).irrational_sqrt
    simpa using h
  exact hirr.ne_int (4 * n) (by push_cast; linarith)

theorem polChild0_rotation_ne :
    RBPolar.rotation polChild0 ≠ Mat3.identity := by
  intro heq
  have hz := congrArg (fun m : Mat3 ℝ => m.zAxis.z) heq
  simp only [RBPolar.rotation, polChild0, RBPolar.rotationAt,
    Mat3.fromAxisAngle, Mat3.identity, Range.center] at hz
  rw [show (-Real.pi + 0)/2 = -(Real.pi/2) by ring] at hz
  rw [Real.cos_neg, Real.cos_pi_div_two] at hz
  norm_num at hz

theorem poseRot_pol_short (rt tt : ℝ) (corres : List (Corres ℝ))
    (h : corres.length < 2) :
    Solver.poseRot 1 ⟨corres, rt, tt, RotationBound.polarCoordinate⟩ =
      some (RBPolar.rotation polChild0) := by
  have hseed : poseSeedPolar corres = polSeedNil := by
    unfold poseSeedPolar RBPolar.new polSeedNil
    rw [makePairs_short corres h]
  unfold Solver.poseRot
  dsimp only
  rw [hseed]
  unfold bnbRot3
  have hfrom : heapFromList rbPolarOps.cmp [polSeedNil] = [polSeedNil] := rfl
  rw [hfrom]
  unfold bnbLoop
  rw [bnbStep_polSeedNil rt]

/-! ## Claim theorems -/

/-- C1 counterexample: in the first branch step of a polar solve on
`exCorres` at threshold `π/2`, the bounded child region
`computeBound exPolarChild (π/2)` (one of the regions pushed onto the
frontier) has `L = 1`, yet the rotation with parameters `(π/2, 0, π/2)`,
which lies inside that region, has inlier count `0 < L`.  So the inlier
count of a rotation in Ω need not lie in `[L(Ω), U(Ω)]`: `L` is not a
pointwise lower bound. -/
theorem polar_lower_not_pointwise_bound :
    heapPop rbPolarOps.cmp [poseSeedPolar exCorres] =
      some (poseSeedPolar exCorres, []) ∧
    RBPolar.computeBound exPolarChild (Real.pi/2) ∈
      (RBPolar.subdivide (poseSeedPolar exCorres)).map
        (fun d => RBPolar.computeBound d (Real.pi/2)) ∧
    (RBPolar.computeBound exPolarChild (Real.pi/2)).lower = 1 ∧
    RBPolar.memParams (RBPolar.computeBound exPolarChild (Real.pi/2))
      (Real.pi/2) 0 (Real.pi/2) ∧
    inlierCount (CorresPair.makePairs exCorres)
      (RBPolar.rotationAt (Real.pi/2) 0 (Real.pi/2)) (Real.pi/2) = 0 := by
  have hπ := Real.pi_pos
  refine ⟨rfl, List.mem_map_of_mem _ exChild_mem, exChild_bound_lower, ?_,
    exInside_count⟩
  have hg := polFold_geom (Real.pi/2) exPolarChild.corres_pairs exPolarChild
  unfold RBPolar.memParams RBPolar.computeBound
  rw [hg.1, hg.2.1, hg.2.2]
  unfold exPolarChild
  dsimp only
  refine ⟨by linarith, by linarith, by linarith, by linarith, by linarith,
    by linarith⟩

/-- C1 (amended): `L(Ω)` computed by `compute_bound` on a freshly
constructed region equals the inlier count of the region's center
rotation `R(Ω)`, which (for the polar parameterization, with ordered
intervals) lies in Ω; it is a lower bound on the best inlier count
achievable in Ω, not a bound on the count of every rotation in Ω. -/
theorem compute_bound_lower_eq_center_inliers :
    (∀ (r : RBAngleAxis ℝ) (t : ℝ), r.upper = 0 → r.lower = 0 →
      (r.computeBound t).lower = inlierCount r.corres_pairs r.rotation t) ∧
    (∀ (r : RBPolar ℝ) (t : ℝ), r.upper = 0 → r.lower = 0 →
      r.theta.min ≤ r.theta.max → r.phi.min ≤ r.phi.max →
      r.angle.min ≤ r.angle.max →
      (r.computeBound t).lower = inlierCount r.corres_pairs r.rotation t ∧
      r.memParams r.theta.center r.phi.center r.angle.center) := by
  constructor
  · intro r t hu hl
    have h := (aaFold_counts t r.corres_pairs r).1
    unfold RBAngleAxis.computeBound inlierCount
    rw [h, hl]
    exact Nat.zero_add _
  · intro r t hu hl h1 h2 h3
    constructor
    · have h := (polFold_counts t r.corres_pairs r).1
      unfold RBPolar.computeBound inlierCount
      rw [h, hl]
      exact Nat.zero_add _
    · unfold RBPolar.memParams Range.center
      refine ⟨by linarith, by linarith, by linarith, by linarith, by linarith,
        by linarith⟩

theorem compute_bound_lower_eq_center_inliers_witness :
    ((⟨0, 0, ⟨0, 0, 0⟩, 1, []⟩ : RBAngleAxis ℝ).upper = 0 ∧
      (⟨0, 0, ⟨0, 1⟩, ⟨0, 1⟩, ⟨0, 1⟩, []⟩ : RBPolar ℝ).theta.min ≤
        (⟨0, 0, ⟨0, 1⟩, ⟨0, 1⟩, ⟨0, 1⟩, []⟩ : RBPolar ℝ).theta.max) ∧
    (RBAngleAxis.computeBound ⟨0, 0, ⟨0, 0, 0⟩, 1, []⟩ 1).lower =
      inlierCount (⟨0, 0, ⟨0, 0, 0⟩, 1, []⟩ : RBAngleAxis ℝ).corres_pairs
        (RBAngleAxis.rotation ⟨0, 0, ⟨0, 0, 0⟩, 1, []⟩) 1 ∧
    ((RBPolar.computeBound ⟨0, 0, ⟨0, 1⟩, ⟨0, 1⟩, ⟨0, 1⟩, []⟩ 1).lower =
      inlierCount (⟨0, 0, ⟨0, 1⟩, ⟨0, 1⟩, ⟨0, 1⟩, []⟩ : RBPolar ℝ).corres_pairs
        (RBPolar.rotation ⟨0, 0, ⟨0, 1⟩, ⟨0, 1⟩, ⟨0, 1⟩, []⟩) 1 ∧
      RBPolar.memParams ⟨0, 0, ⟨0, 1⟩, ⟨0, 1⟩, ⟨0, 1⟩, []⟩
        (⟨0, 0, ⟨0, 1⟩, ⟨0, 1⟩, ⟨0, 1⟩, []⟩ : RBPolar ℝ).theta.center
        (⟨0, 0, ⟨0, 1⟩, ⟨0, 1⟩, ⟨0, 1⟩, []⟩ : RBPolar ℝ).phi.center
        (⟨0, 0, ⟨0, 1⟩, ⟨0, 1⟩, ⟨0, 1⟩, []⟩ : RBPolar ℝ).angle.center) :=
  ⟨⟨rfl, by norm_num⟩,
   compute_bound_lower_eq_center_inliers.1 ⟨0, 0, ⟨0, 0, 0⟩, 1, []⟩ 1 rfl rfl,
   compute_bound_lower_eq_center_inliers.2 ⟨0, 0, ⟨0, 1⟩, ⟨0, 1⟩, ⟨0, 1⟩, []⟩ 1
     rfl rfl (by norm_num) (by norm_num) (by norm_num)⟩

/-- C2 counterexample: `pose()` on a solver with zero correspondences in
the angle-axis mode terminates in the first iteration through the
`peek().upper == lower_bound` exit and returns the top child region's
rotation — an axis-angle rotation of angle `√3·π/2` about the normalized
`(π/2, π/2, π/2)` axis — which is not the identity matrix. -/
theorem pose_empty_not_identity :
    Solver.poseRot 1 ⟨[], 1, 1, RotationBound.angleAxis⟩ =
      some (RBAngleAxis.rotation aaChild0) ∧
    RBAngleAxis.rotation aaChild0 ≠ Mat3.identity :=
  ⟨poseRot_aa_short 1 1 [] (by norm_num), aaChild0_rotation_ne⟩

/-- C2 (amended): with fewer than two correspondences `pose()` does not
error and the incumbent lower bound stays `L* = 0`, but in both
parameterizations the rotation returned is the rotation of the first
child region of the seed (the heap's top after the first subdivision),
not the identity. -/
theorem pose_short_returns_top_child (rt tt : ℝ) (corres : List (Corres ℝ))
    (h : corres.length < 2) :
    Solver.poseRot 1 ⟨corres, rt, tt, RotationBound.angleAxis⟩ =
      some (RBAngleAxis.rotation aaChild0) ∧
    Solver.poseRot 1 ⟨corres, rt, tt, RotationBound.polarCoordinate⟩ =
      some (RBPolar.rotation polChild0) ∧
    RBAngleAxis.rotation aaChild0 ≠ Mat3.identity ∧
    RBPolar.rotation polChild0 ≠ Mat3.identity ∧
    (afterBranch rbAngleAxisOps rt ⟨0, Mat3.identity, [aaSeedNil]⟩
      aaSeedNil []).lower_bound = 0 ∧
    (afterBranch rbPolarOps rt ⟨0, Mat3.identity, [polSeedNil]⟩
      polSeedNil []).lower_bound = 0 := by
  refine ⟨poseRot_aa_short rt tt corres h, poseRot_pol_short rt tt corres h,
    aaChild0_rotation_ne, polChild0_rotation_ne, ?_, ?_⟩
  · rw [afterBranch_aaSeedNil rt]
  · rw [afterBranch_polSeedNil rt]

theorem pose_short_returns_top_child_witness :
    ([] : List (Corres ℝ)).length < 2 ∧
    (Solver.poseRot 1 ⟨[], 2, 3, RotationBound.angleAxis⟩ =
      some (RBAngleAxis.rotation aaChild0) ∧
    Solver.poseRot 1 ⟨[], 2, 3, RotationBound.polarCoordinate⟩ =
      some (RBPolar.rotation polChild0) ∧
    RBAngleAxis.rotation aaChild0 ≠ Mat3.identity ∧
    RBPolar.rotation polChild0 ≠ Mat3.identity ∧
    (afterBranch rbAngleAxisOps 2 ⟨0, Mat3.identity, [aaSeedNil]⟩
      aaSeedNil []).lower_bound = 0 ∧
    (afterBranch rbPolarOps 2 ⟨0, Mat3.identity, [polSeedNil]⟩
      polSeedNil []).lower_bound = 0) :=
  ⟨by norm_num, pose_short_returns_top_child 2 3 [] (by norm_num)⟩

/-- C3 counterexample: a run of the generic `bnb_rot3` step on a client
region type terminates through the `peek().upper == lower_bound` exit
returning rotation `7` — the top region's rotation — while the incumbent
rotation `R*` recorded with the maximum lower bound seen is `5`. -/
theorem bnb_early_exit_not_incumbent :
    bnbStep toyOps 1 ⟨0, 0, [toySeed]⟩ = StepRes.done 7 ∧
    (afterBranch toyOps 1 ⟨0, 0, [toySeed]⟩ toySeed []).domain = 5 ∧
    (7 : ℕ) ≠ 5 :=
  ⟨rfl, rfl, by decide⟩

/-- C3 (amended): whenever the `bnb_rot3` loop terminates it returns the
incumbent `R*` in the heap-empty case, and in the
`peek().upper == lower_bound` case it returns the rotation of the heap's
top region — whose upper bound equals `L*` — which need not be `R*`. -/
theorem bnb_done_returns_incumbent_or_top {R M : Type} (ops : RBoundOps R M)
    (t : ℝ) (st : BnBState R M) (r : M)
    (h : bnbStep ops t st = StepRes.done r) :
    (heapPop ops.cmp st.queue = none ∧ r = st.domain) ∨
    (∃ bound rest h0 tl,
      heapPop ops.cmp st.queue = some (bound, rest) ∧
      (afterBranch ops t st bound rest).queue = h0 :: tl ∧
      ops.upper h0 = (afterBranch ops t st bound rest).lower_bound ∧
      r = ops.rotation h0) :=
  bnbStep_done_eq ops t st r h

theorem bnb_done_returns_incumbent_or_top_witness :
    bnbStep toyOps 1 ⟨0, 0, [toySeed]⟩ = StepRes.done 7 ∧
    ((heapPop toyOps.cmp (⟨0, 0, [toySeed]⟩ : BnBState ToyRegion ℕ).queue = none ∧
        (7 : ℕ) = (⟨0, 0, [toySeed]⟩ : BnBState ToyRegion ℕ).domain) ∨
      (∃ bound rest h0 tl,
        heapPop toyOps.cmp (⟨0, 0, [toySeed]⟩ : BnBState ToyRegion ℕ).queue =
          some (bound, rest) ∧
        (afterBranch toyOps 1 ⟨0, 0, [toySeed]⟩ bound rest).queue = h0 :: tl ∧
        toyOps.upper h0 =
          (afterBranch toyOps 1 ⟨0, 0, [toySeed]⟩ bound rest).lower_bound ∧
        (7 : ℕ) = toyOps.rotation h0)) :=
  ⟨rfl, bnb_done_returns_incumbent_or_top toyOps 1 ⟨0, 0, [toySeed]⟩ 7 rfl⟩

/-- C4: on a freshly constructed axis-angle region (bounds zero, as on
construction), `compute_bound` sets `L` to the number of pairs with
`|∠(v, R(Ω)·u) - π/2| < τ` and `U` to the number with
`|∠(v, R(Ω)·u) - π/2| < τ + √3·(e/2)`, the residual evaluated at the
region's center rotation. -/
theorem angle_axis_compute_bound_counts (r : RBAngleAxis ℝ) (t : ℝ)
    (hu : r.upper = 0) (hl : r.lower = 0) :
    (r.computeBound t).lower = r.corres_pairs.countP
        (fun p => decide (|p.uv.vRuAngle r.rotation - Real.pi/2| < t)) ∧
    (r.computeBound t).upper = r.corres_pairs.countP
        (fun p => decide (|p.uv.vRuAngle r.rotation - Real.pi/2| <
          t + Real.sqrt 3 * (r.edge/2))) := by
  have h := aaFold_counts t r.corres_pairs r
  unfold RBAngleAxis.computeBound
  rw [h.1, h.2, hu, hl]
  exact ⟨Nat.zero_add _, Nat.zero_add _⟩

theorem angle_axis_compute_bound_counts_witness :
    ((⟨0, 0, ⟨1, 2, 3⟩, 5, []⟩ : RBAngleAxis ℝ).upper = 0 ∧
      (⟨0, 0, ⟨1, 2, 3⟩, 5, []⟩ : RBAngleAxis ℝ).lower = 0) ∧
    ((RBAngleAxis.computeBound ⟨0, 0, ⟨1, 2, 3⟩, 5, []⟩ 7).lower =
      (⟨0, 0, ⟨1, 2, 3⟩, 5, []⟩ : RBAngleAxis ℝ).corres_pairs.countP
        (fun p => decide (|p.uv.vRuAngle
          (RBAngleAxis.rotation ⟨0, 0, ⟨1, 2, 3⟩, 5, []⟩) - Real.pi/2| < 7)) ∧
    (RBAngleAxis.computeBound ⟨0, 0, ⟨1, 2, 3⟩, 5, []⟩ 7).upper =
      (⟨0, 0, ⟨1, 2, 3⟩, 5, []⟩ : RBAngleAxis ℝ).corres_pairs.countP
        (fun p => decide (|p.uv.vRuAngle
          (RBAngleAxis.rotation ⟨0, 0, ⟨1, 2, 3⟩, 5, []⟩) - Real.pi/2| <
            7 + Real.sqrt 3 *
              ((⟨0, 0, ⟨1, 2, 3⟩, 5, []⟩ : RBAngleAxis ℝ).edge/2)))) :=
  ⟨⟨rfl, rfl⟩, angle_axis_compute_bound_counts ⟨0, 0, ⟨1, 2, 3⟩, 5, []⟩ 7 rfl rfl⟩

/-- C5: subdivision tiles the parent in both parameterizations: every
axis-angle vector in the parent cube lies in at least one of the eight
child cubes, and every `(θ, φ, a)` triple in the parent interval product
lies in at least one of the eight child interval products. -/
theorem subdivide_tiles_parent :
    (∀ (r : RBAngleAxis ℝ) (v : Vec3 ℝ), r.memCube v →
      ∃ c ∈ r.subdivide, c.memCube v) ∧
    (∀ (r : RBPolar ℝ) (t p a : ℝ), r.memParams t p a →
      ∃ c ∈ r.subdivide, c.memParams t p a) := by
  constructor
  · intro r v hm
    obtain ⟨hx, hy, hz⟩ := hm
    unfold RBAngleAxis.subdivide
    dsimp only
    rcases le_total r.center.x v.x with hcx | hcx <;>
      rcases le_total r.center.y v.y with hcy | hcy <;>
      rcases le_total r.center.z v.z with hcz | hcz
    · exact ⟨_, List.mem_cons_self _ _,
        halfCoverHigh _ _ _ hx hcx, halfCoverHigh _ _ _ hy hcy,
        halfCoverHigh _ _ _ hz hcz⟩
    · exact ⟨_, List.mem_cons_of_mem _ (List.mem_cons_self _ _),
        halfCoverHigh _ _ _ hx hcx, halfCoverHigh _ _ _ hy hcy,
        halfCoverLow _ _ _ hz hcz⟩
    · exact ⟨_, List.mem_cons_of_mem _ (List.mem_cons_of_mem _
        (List.mem_cons_self _ _)),
        halfCoverHigh _ _ _ hx hcx, halfCoverLow _ _ _ hy hcy,
        halfCoverHigh _ _ _ hz hcz⟩
    · exact ⟨_, List.mem_cons_of_mem _ (List.mem_cons_of_mem _
        (List.mem_cons_of_mem _ (List.mem_cons_self _ _))),
        halfCoverHigh _ _ _ hx hcx, halfCoverLow _ _ _ hy hcy,
        halfCoverLow _ _ _ hz hcz⟩
    · exact ⟨_, List.mem_cons_of_mem _ (List.mem_cons_of_mem _
        (List.mem_cons_of_mem _ (List.mem_cons_of_mem _
          (List.mem_cons_self _ _)))),
        halfCoverLow _ _ _ hx hcx, halfCoverHigh _ _ _ hy hcy,
        halfCoverHigh _ _ _ hz hcz⟩
    · exact ⟨_, List.mem_cons_of_mem _ (List.mem_cons_of_mem _
        (List.mem_cons_of_mem _ (List.mem_cons_of_mem _
          (List.mem_cons_of_mem _ (List.mem_cons_self _ _))))),
        halfCoverLow _ _ _ hx hcx, halfCoverHigh _ _ _ hy hcy,
        halfCoverLow _ _ _ hz hcz⟩
    · exact ⟨_, List.mem_cons_of_mem _ (List.mem_cons_of_mem _
        (List.mem_cons_of_mem _ (List.mem_cons_of_mem _
          (List.mem_cons_of_mem _ (List.mem_cons_of_mem _
            (List.mem_cons_self _ _)))))),
        halfCoverLow _ _ _ hx hcx, halfCoverLow _ _ _ hy hcy,
        halfCoverHigh _ _ _ hz hcz⟩
    · exact ⟨_, List.mem_cons_of_mem _ (List.mem_cons_of_mem _
        (List.mem_cons_of_mem _ (List.mem_cons_of_mem _
          (List.mem_cons_of_mem _ (List.mem_cons_of_mem _
            (List.mem_cons_of_mem _ (List.mem_cons_self _ _))))))),
        halfCoverLow _ _ _ hx hcx, halfCoverLow _ _ _ hy hcy,
        halfCoverLow _ _ _ hz hcz⟩
  · intro r t p a hm
    obtain ⟨h1, h2, h3, h4, h5, h6⟩ := hm
    unfold RBPolar.subdivide Range.divide
    dsimp only
    rcases le_total t r.theta.center with ht | ht <;>
      rcases le_total p r.phi.center with hp | hp <;>
      rcases le_total a r.angle.center with ha | ha
    · exact ⟨_, List.mem_cons_self _ _, h1, ht, h3, hp, h5, ha⟩
    · exact ⟨_, List.mem_cons_of_mem _ (List.mem_cons_self _ _),
        h1, ht, h3, hp, ha, h6⟩
    · exact ⟨_, List.mem_cons_of_mem _ (List.mem_cons_of_mem _
        (List.mem_cons_self _ _)), h1, ht, hp, h4, h5, ha⟩
    · exact ⟨_, List.mem_cons_of_mem _ (List.mem_cons_of_mem _
        (List.mem_cons_of_mem _ (List.mem_cons_self _ _))),
        h1, ht, hp, h4, ha, h6⟩
    · exact ⟨_, List.mem_cons_of_mem _ (List.mem_cons_of_mem _
        (List.mem_cons_of_mem _ (List.mem_cons_of_mem _
          (List.mem_cons_self _ _)))), ht, h2, h3, hp, h5, ha⟩
    · exact ⟨_, List.mem_cons_of_mem _ (List.mem_cons_of_mem _
        (List.mem_cons_of_mem _ (List.mem_cons_of_mem _
          (List.mem_cons_of_mem _ (List.mem_cons_self _ _))))),
        ht, h2, h3, hp, ha, h6⟩
    · exact ⟨_, List.mem_cons_of_mem _ (List.mem_cons_of_mem _
        (List.mem_cons_of_mem _ (List.mem_cons_of_mem _
          (List.mem_cons_of_mem _ (List.mem_cons_of_mem _
            (List.mem_cons_self _ _)))))), ht, h2, hp, h4, h5, ha⟩
    · exact ⟨_, List.mem_cons_of_mem _ (List.mem_cons_of_mem _
        (List.mem_cons_of_mem _ (List.mem_cons_of_mem _
          (List.mem_cons_of_mem _ (List.mem_cons_of_mem _
            (List.mem_cons_of_mem _ (List.mem_cons_self _ _))))))),
        ht, h2, hp, h4, ha, h6⟩

theorem subdivide_tiles_parent_witness :
    (⟨0, 0, ⟨0, 0, 0⟩, 4, []⟩ : RBAngleAxis ℝ).memCube ⟨1, 1, 1⟩ ∧
    (⟨0, 0, ⟨0, 2⟩, ⟨0, 2⟩, ⟨0, 2⟩, []⟩ : RBPolar ℝ).memParams 1 1 1 ∧
    (∃ c ∈ (⟨0, 0, ⟨0, 0, 0⟩, 4, []⟩ : RBAngleAxis ℝ).subdivide,
      c.memCube ⟨1, 1, 1⟩) ∧
    (∃ c ∈ (⟨0, 0, ⟨0, 2⟩, ⟨0, 2⟩, ⟨0, 2⟩, []⟩ : RBPolar ℝ).subdivide,
      c.memParams 1 1 1) := by
  have hm1 : (⟨0, 0, ⟨0, 0, 0⟩, 4, []⟩ : RBAngleAxis ℝ).memCube ⟨1, 1, 1⟩ := by
    unfold RBAngleAxis.memCube
    norm_num
  have hm2 : (⟨0, 0, ⟨0, 2⟩, ⟨0, 2⟩, ⟨0, 2⟩, []⟩ : RBPolar ℝ).memParams 1 1 1 := by
    unfold RBPolar.memParams
    norm_num
  exact ⟨hm1, hm2, subdivide_tiles_parent.1 _ _ hm1,
    subdivide_tiles_parent.2 _ _ _ _ hm2⟩

/-- C6: after an iteration of the branch-and-bound loop that continues
(the state after the pruning pass), every region on the frontier heap
has an upper bound at least the incumbent lower bound `L*`. -/
theorem frontier_upper_ge_incumbent {R M : Type} (ops : RBoundOps R M)
    (t : ℝ) (st st1 : BnBState R M) (r : R)
    (h : bnbStep ops t st = StepRes.next st1) (hr : r ∈ st1.queue) :
    st1.lower_bound ≤ ops.upper r := by
  obtain ⟨bound, rest, hpop, heq⟩ := bnbStep_next_eq ops t st st1 h
  subst heq
  exact afterBranch_queue_bound ops t st bound rest r hr

theorem frontier_upper_ge_incumbent_witness :
    bnbStep toyOps 1 ⟨0, 0, [toySeed2]⟩ =
      StepRes.next ⟨0, 0, [ToyRegion.node 5 0 4 []]⟩ ∧
    ToyRegion.node 5 0 4 [] ∈
      (⟨0, 0, [ToyRegion.node 5 0 4 []]⟩ : BnBState ToyRegion ℕ).queue ∧
    (⟨0, 0, [ToyRegion.node 5 0 4 []]⟩ : BnBState ToyRegion ℕ).lower_bound ≤
      toyOps.upper (ToyRegion.node 5 0 4 []) :=
  ⟨rfl, List.mem_singleton.mpr rfl,
    frontier_upper_ge_incumbent toyOps 1 ⟨0, 0, [toySeed2]⟩
      ⟨0, 0, [ToyRegion.node 5 0 4 []]⟩ (ToyRegion.node 5 0 4 []) rfl
      (List.mem_singleton.mpr rfl)⟩

/-- C7: across one iteration of the branch-and-bound loop the incumbent
lower bound `L*` never decreases (the update pass only ever raises it),
hence it is nondecreasing across the whole search. -/
theorem incumbent_monotone {R M : Type} (ops : RBoundOps R M) (t : ℝ)
    (st st1 : BnBState R M) (h : bnbStep ops t st = StepRes.next st1) :
    st.lower_bound ≤ st1.lower_bound := by
  obtain ⟨bound, rest, hpop, heq⟩ := bnbStep_next_eq ops t st st1 h
  subst heq
  exact afterBranch_lb_mono ops t st bound rest

theorem incumbent_monotone_witness :
    bnbStep toyOps 1 ⟨0, 0, [toySeed2]⟩ =
      StepRes.next ⟨0, 0, [ToyRegion.node 5 0 4 []]⟩ ∧
    (⟨0, 0, [toySeed2]⟩ : BnBState ToyRegion ℕ).lower_bound ≤
      (⟨0, 0, [ToyRegion.node 5 0 4 []]⟩ : BnBState ToyRegion ℕ).lower_bound :=
  ⟨rfl, incumbent_monotone toyOps 1 ⟨0, 0, [toySeed2]⟩
    ⟨0, 0, [ToyRegion.node 5 0 4 []]⟩ rfl⟩

/-- C8 counterexample: the active `Ord` implementations of `bounds3.rs`
order two regions all of whose geometric fields are the NaN-like element
of the scalar carrier, silently and without any fatal check — the
comparison is a total function with no panic path. -/
theorem cmp_orders_nan_geometry_silently :
    RBAngleAxis.cmp nanAngleAxis1 nanAngleAxis2 = Ordering.gt ∧
    RBPolar.cmp nanPolar1 nanPolar2 = Ordering.gt :=
  ⟨rfl, rfl⟩

/-- C8 (amended): the active region comparisons read only the integer
bound fields — `(upper, lower)` lexicographically for `RBAngleAxis` and
`upper` alone for `RBPolar` — and are entirely independent of the
geometric fields (and, for `RBPolar`, of `lower`), for every scalar
carrier; NaN geometry is therefore silently ordered, never a fatal
check. -/
theorem cmp_ignores_geometry :
    (∀ (S : Type) (a b : RBAngleAxis S) (c1 c2 : Vec3 S) (e1 e2 : S)
        (ps1 ps2 : List (CorresPair S)),
      RBAngleAxis.cmp ⟨a.upper, a.lower, c1, e1, ps1⟩
          ⟨b.upper, b.lower, c2, e2, ps2⟩ =
        RBAngleAxis.cmp a b) ∧
    (∀ (S : Type) (a b : RBPolar S) (t1 t2 f1 f2 g1 g2 : Range S)
        (n1 n2 : ℕ) (ps1 ps2 : List (CorresPair S)),
      RBPolar.cmp ⟨a.upper, n1, t1, f1, g1, ps1⟩
          ⟨b.upper, n2, t2, f2, g2, ps2⟩ =
        RBPolar.cmp a b) :=
  ⟨by intros; rfl, by intros; rfl⟩

/-- C9 counterexample: `add_correspondence` with the singular calibration
`fx = 0` (determinant of the intrinsic matrix is `0`) does not fail: it
stores a correspondence derived from the non-invertible `K`.  The source
has no error path; glam's unchecked `inverse` is applied to the singular
matrix. -/
theorem add_singular_calibration_stores :
    (Solver.addCorrespondence (Solver.new 1 1) ((3 : ℤ), (4 : ℤ))
      ⟨1, 2, 3⟩ singularK).corres.length = 1 ∧
    singularK.asMat3a.determinant = 0 := by
  constructor
  · rfl
  · unfold singularK CameraK.asMat3a Mat3.determinant Vec3.cross Vec3.dot
    norm_num

/-- C9 (amended): `add_correspondence` performs no calibration check and
never signals an error: for every calibration, singular or not, it
appends exactly one correspondence whose camera coordinate is the pixel
mapped through glam's unchecked inverse of `K`, leaving the rest of the
solver unchanged. -/
theorem add_correspondence_always_appends (s : Solver ℝ) (proj : ICoord)
    (w : Vec3 ℝ) (k : CameraK) :
    (s.addCorrespondence proj w k).corres =
      s.corres ++ [⟨k.toCameraCoord proj, w⟩] ∧
    (s.addCorrespondence proj w k).r_threshold = s.r_threshold ∧
    (s.addCorrespondence proj w k).t_threshold = s.t_threshold ∧
    (s.addCorrespondence proj w k).rot_bound = s.rot_bound :=
  ⟨rfl, rfl, rfl, rfl⟩

/-- C10: `pose` borrows the solver immutably (`&self`), so in the
state-passing embedding `poseM` it returns the solver unchanged — the
correspondence vector, both thresholds and the selected parameterization
are those of the input — and a repeated call on the resulting state
returns the same value. -/
theorem pose_preserves_solver_state (fuel : ℕ) (s : Solver ℝ) :
    (Solver.poseM fuel s).2 = s ∧
    (Solver.poseM fuel s).2.corres = s.corres ∧
    (Solver.poseM fuel s).2.r_threshold = s.r_threshold ∧
    (Solver.poseM fuel s).2.t_threshold = s.t_threshold ∧
    (Solver.poseM fuel s).2.rot_bound = s.rot_bound ∧
    (Solver.poseM fuel ((Solver.poseM fuel s).2)).1 = (Solver.poseM fuel s).1 :=
  ⟨rfl, rfl, rfl, rfl, rfl, rfl⟩

end RGPnP
